import Mathlib

/-!
# Verification of the `luxfi/validators` canonicalization pipeline and registry

Shallow embedding of the Go sources:
* `warp_ordering.go` — `FlattenValidatorSet`, `FilterValidators`, `SumWeight`,
  canonical ordering by public-key bytes, overflow-checked weight arithmetic;
* the validator manager (`NewManager`/`AddStaker`/`AddWeight`/`RemoveWeight`/
  queries) — per-network weighted membership with unchecked uint64 arithmetic.

Machine integers are modelled as `Nat` with explicit `% 2 ^ 64` where Go wraps,
and with the checked-addition guard `a + b ≤ 2 ^ 64 - 1` where Go uses
`math.Add64`.  Go maps are modelled as association lists (with a
no-duplicate-keys well-formedness predicate where deletion semantics needs it).
The external BLS primitive (`bls.PublicKeyFromCompressedBytes` composed with
`bls.PublicKeyToUncompressedBytes`) is an opaque parameter
`decode : List Nat → Option (List Nat)` from compressed bytes to canonical
uncompressed bytes; a decoded public-key object is represented by its canonical
byte encoding.
-/

namespace LuxValidators

/-- `math.MaxUint64`. -/
def U64MAX : Nat := 2 ^ 64 - 1

/-- The two domain errors of `warp_ordering.go`:
`ErrWeightOverflow` and `ErrUnknownValidator`. -/
inductive VErr where
  | weightOverflow
  | unknownValidator
deriving DecidableEq

/-- `math.Add64`: checked uint64 addition.  `FlattenValidatorSet` and
`SumWeight` wrap its failure in `ErrWeightOverflow`; the composition is
modelled directly. -/
def add64 (a b : Nat) : Except VErr Nat :=
  if a + b ≤ U64MAX then .ok (a + b) else .error .weightOverflow

/-- Go's wrapping uint64 addition (`+=`). -/
def add64wrap (a b : Nat) : Nat := (a + b) % 2 ^ 64

/-- Go's wrapping uint64 subtraction (`-=`, two's complement,
for operands below `2 ^ 64`). -/
def sub64wrap (a b : Nat) : Nat := (a + 2 ^ 64 - b % 2 ^ 64) % 2 ^ 64

/-- `GetValidatorOutput`: one raw validator record.  `NodeID`, `TxID` and
identifiers in general are opaque and modelled as `Nat`; byte strings as
`List Nat`.  `Weight` is an alias of `Light` kept by the manager in lockstep. -/
structure GetValidatorOutput where
  NodeID : Nat
  PublicKey : List Nat
  RingtailPubKey : List Nat
  Light : Nat
  Weight : Nat
  TxID : Nat
deriving DecidableEq

/-- `CanonicalValidator`: a deduplicated entry of the canonical set.  The
decoded `PublicKey` object is represented by its canonical uncompressed bytes,
so only `PublicKeyBytes` is kept. -/
structure CanonicalValidator where
  PublicKeyBytes : List Nat
  Weight : Nat
  NodeIDs : List Nat
deriving DecidableEq

/-- `bytes.Compare`: lexicographic comparison of byte strings. -/
def bytesCompare : List Nat → List Nat → Ordering
  | [], [] => .eq
  | [], _ :: _ => .lt
  | _ :: _, [] => .gt
  | a :: as, b :: bs =>
    if a < b then .lt else if b < a then .gt else bytesCompare as bs

/-- `(*CanonicalValidator).Compare`: canonical ordering by public-key bytes. -/
def CanonicalValidator.Compare (v o : CanonicalValidator) : Ordering :=
  bytesCompare v.PublicKeyBytes o.PublicKeyBytes

/-- `Compare(v, o) <= 0`, the order used by `slices.SortFunc`. -/
def cmpLe (v o : CanonicalValidator) : Bool :=
  match v.Compare o with
  | .gt => false
  | _ => true

/-- `slices.SortFunc(vdrList, (*CanonicalValidator).Compare)`.  The Go sort is
an unstable comparison sort; because the keys to be sorted are pairwise
distinct (they are the keys of `pkToValidator`), every comparison sort returns
the same list, so `mergeSort` models it exactly. -/
def sortValidators (l : List CanonicalValidator) : List CanonicalValidator :=
  l.mergeSort cmpLe

/-- The merge-or-insert step of `FlattenValidatorSet` (lines 83–99): the map
`pkToValidator` is an association list keyed by `PublicKeyBytes`; an existing
entry gets its weight checked-added and the `NodeID` appended, otherwise a
fresh entry is created. -/
def mergeInto : List CanonicalValidator → List Nat → Nat → Nat →
    Except VErr (List CanonicalValidator)
  | [], pk, w, nid => .ok [⟨pk, w, [nid]⟩]
  | cv :: rest, pk, w, nid =>
    if cv.PublicKeyBytes = pk then
      match add64 cv.Weight w with
      | .error e => .error e
      | .ok w' => .ok ({ cv with Weight := w', NodeIDs := cv.NodeIDs ++ [nid] } :: rest)
    else
      match mergeInto rest pk w nid with
      | .error e => .error e
      | .ok rest' => .ok (cv :: rest')

/-- The loop of `FlattenValidatorSet` (lines 61–100): accumulate the running
total with checked addition, skip records with empty or undecodable key bytes,
merge the rest into the public-key map. -/
def flattenGo (decode : List Nat → Option (List Nat)) :
    List GetValidatorOutput → List CanonicalValidator → Nat →
    Except VErr (List CanonicalValidator × Nat)
  | [], m, t => .ok (m, t)
  | vdr :: rest, m, t =>
    match add64 t vdr.Weight with
    | .error e => .error e
    | .ok t' =>
      if vdr.PublicKey = [] then flattenGo decode rest m t'
      else
        match decode vdr.PublicKey with
        | none => flattenGo decode rest m t'
        | some pkBytes =>
          match mergeInto m pkBytes vdr.Weight vdr.NodeID with
          | .error e => .error e
          | .ok m' => flattenGo decode rest m' t'

/-- `CanonicalValidatorSet`: sorted canonical validators plus the total weight
of all input validators. -/
structure CanonicalValidatorSet where
  Validators : List CanonicalValidator
  TotalWeight : Nat
deriving DecidableEq

/-- `FlattenValidatorSet`.  The input map is modelled by the list of its
values in enumeration order (the map key is never read; the code uses the
`NodeID` field of each value).  Go returns `(CanonicalValidatorSet{}, err)` on
failure; the zero-value-plus-error convention is the `Except` error branch. -/
def FlattenValidatorSet (decode : List Nat → Option (List Nat))
    (vdrSet : List GetValidatorOutput) : Except VErr CanonicalValidatorSet :=
  match flattenGo decode vdrSet [] 0 with
  | .error e => .error e
  | .ok (m, t) => .ok ⟨sortValidators m, t⟩

/-- `set.Bits` is a big-integer bitset, modelled by a `Nat`;
`BitLen` is `Nat.size` (index of the highest set bit plus one). -/
def bitLen (b : Nat) : Nat := Nat.size b

/-- `set.Bits.Contains`. -/
def bitsContains (b i : Nat) : Bool := b.testBit i

/-- The selection loop of `FilterValidators` (lines 126–133). -/
def filterGo (indices : Nat) : Nat → List CanonicalValidator → List CanonicalValidator
  | _, [] => []
  | i, v :: rest =>
    if bitsContains indices i then v :: filterGo indices (i + 1) rest
    else filterGo indices (i + 1) rest

/-- `FilterValidators`: reject a selector whose bit length exceeds the
sequence length, otherwise keep the validators at set-bit positions. -/
def FilterValidators (indices : Nat) (vdrs : List CanonicalValidator) :
    Except VErr (List CanonicalValidator) :=
  if bitLen indices > vdrs.length then .error .unknownValidator
  else .ok (filterGo indices 0 vdrs)

/-- The loop of `SumWeight` (lines 143–148). -/
def sumWeightGo : List CanonicalValidator → Nat → Except VErr Nat
  | [], w => .ok w
  | v :: rest, w =>
    match add64 w v.Weight with
    | .error e => .error e
    | .ok w' => sumWeightGo rest w'

/-- `SumWeight`: overflow-checked total weight of a validator subset. -/
def SumWeight (vdrs : List CanonicalValidator) : Except VErr Nat :=
  sumWeightGo vdrs 0

/-! ## Specification-side helpers for the canonicalization pipeline -/

/-- Sum of the `Weight` fields of raw records (unbounded `Nat` sum). -/
def wsum (l : List GetValidatorOutput) : Nat := (l.map (·.Weight)).sum

/-- Sum of the `Weight` fields of canonical validators. -/
def cvWsum (l : List CanonicalValidator) : Nat := (l.map (·.Weight)).sum

/-- The canonical key a record contributes, if any: empty key bytes and
undecodable key bytes contribute nothing. -/
def decodedKey (decode : List Nat → Option (List Nat))
    (v : GetValidatorOutput) : Option (List Nat) :=
  if v.PublicKey = [] then none else decode v.PublicKey

/-- The records of `l` contributing to canonical key `k`, in input order. -/
def contrib (decode : List Nat → Option (List Nat)) (k : List Nat)
    (l : List GetValidatorOutput) : List GetValidatorOutput :=
  l.filter (fun v => decodedKey decode v = some k)

/-- Pure (overflow-free) counterpart of `mergeInto`. -/
def insertRec : List CanonicalValidator → List Nat → Nat → Nat → List CanonicalValidator
  | [], pk, w, nid => [⟨pk, w, [nid]⟩]
  | cv :: rest, pk, w, nid =>
    if cv.PublicKeyBytes = pk then
      { cv with Weight := cv.Weight + w, NodeIDs := cv.NodeIDs ++ [nid] } :: rest
    else
      cv :: insertRec rest pk w nid

/-- Pure counterpart of the map-building part of the `FlattenValidatorSet`
loop. -/
def buildMap (decode : List Nat → Option (List Nat)) :
    List GetValidatorOutput → List CanonicalValidator → List CanonicalValidator
  | [], m => m
  | v :: rest, m =>
    match decodedKey decode v with
    | none => buildMap decode rest m
    | some pk => buildMap decode rest (insertRec m pk v.Weight v.NodeID)

/-- First entry with the given canonical key (Go map lookup). -/
def lookupCV (m : List CanonicalValidator) (k : List Nat) : Option CanonicalValidator :=
  m.find? (fun cv => cv.PublicKeyBytes = k)

/-- The key list of a public-key map. -/
def cvKeys (m : List CanonicalValidator) : List (List Nat) :=
  m.map (·.PublicKeyBytes)

/-! ## Association-list model of Go maps -/

/-- Go map read. -/
def lookupA {β : Type} : List (Nat × β) → Nat → Option β
  | [], _ => none
  | (k', b) :: rest, k => if k' = k then some b else lookupA rest k

/-- Go map write (`m[k] = b`): overwrite the entry or append a fresh one. -/
def setA {β : Type} : List (Nat × β) → Nat → β → List (Nat × β)
  | [], k, b => [(k, b)]
  | (k', b') :: rest, k, b =>
    if k' = k then (k', b) :: rest else (k', b') :: setA rest k b

/-- Go map delete (`delete(m, k)`). -/
def eraseA {β : Type} : List (Nat × β) → Nat → List (Nat × β)
  | [], _ => []
  | (k', b') :: rest, k => if k' = k then rest else (k', b') :: eraseA rest k

/-! ## The validator manager (registry)

`manager.validators : map[ids.ID]map[ids.NodeID]*GetValidatorOutput` is
modelled as a nested association list.  The Go methods mutate records through
pointers; the observable behaviour is captured by value updates.  Every Go
method returns a `nil` error unconditionally, so the error channel is omitted
and the operations are total functions on registry states.  Listener
notification does not change registry state and is not modelled. -/

/-- One per-network validator map. -/
abbrev Inner := List (Nat × GetValidatorOutput)

/-- The state of a `manager`. -/
abbrev Registry := List (Nat × Inner)

namespace Manager

/-- `manager.AddStaker`: insert or overwrite the record for
`(netID, nodeID)`, with `Light` and `Weight` both set to `light`. -/
def AddStaker (r : Registry) (net node : Nat) (pk : List Nat) (tx light : Nat) :
    Registry :=
  let inner := (lookupA r net).getD []
  setA r net (setA inner node ⟨node, pk, [], light, light, tx⟩)

/-- `manager.AddWeight`: wrapping uint64 addition on an existing record.
When the network map is absent Go first installs an empty map
(`m.validators[netID] = make(...)`) and only then finds the node missing. -/
def AddWeight (r : Registry) (net node light : Nat) : Registry :=
  match lookupA r net with
  | none => setA r net []
  | some inner =>
    match lookupA inner node with
    | none => r
    | some val =>
      setA r net (setA inner node
        { val with Light := add64wrap val.Light light,
                   Weight := add64wrap val.Weight light })

/-- `manager.RemoveWeight`: clamp-at-zero subtraction; a record reaching zero
weight is deleted, and a network losing its last record is deleted too.
The branch condition guarantees the `Light` subtraction does not wrap. -/
def RemoveWeight (r : Registry) (net node light : Nat) : Registry :=
  match lookupA r net with
  | none => r
  | some inner =>
    match lookupA inner node with
    | none => r
    | some val =>
      let val' :=
        if light ≤ val.Light then
          { val with Light := sub64wrap val.Light light,
                     Weight := sub64wrap val.Weight light }
        else { val with Light := 0, Weight := 0 }
      if val'.Light = 0 then
        let inner' := eraseA inner node
        if inner' = [] then eraseA r net else setA r net inner'
      else setA r net (setA inner node val')

/-- `manager.GetValidator`. -/
def GetValidator (r : Registry) (net node : Nat) : Option GetValidatorOutput :=
  (lookupA r net).bind (fun inner => lookupA inner node)

/-- `manager.GetLight` (and its deprecated alias `GetWeight`). -/
def GetLight (r : Registry) (net node : Nat) : Nat :=
  ((GetValidator r net node).map (·.Light)).getD 0

/-- `manager.NumNets`: number of network entries, empty ones included. -/
def NumNets (r : Registry) : Nat := r.length

/-- `manager.Count` (alias `NumValidators`). -/
def Count (r : Registry) (net : Nat) : Nat := ((lookupA r net).getD []).length

/-- `validatorSet.Light`: wrapping uint64 sum of the `Light` fields. -/
def lightFold (inner : Inner) : Nat :=
  inner.foldl (fun acc p => add64wrap acc p.2.Light) 0

/-- `manager.TotalLight` (alias `TotalWeight`): `GetValidators` returns the
network's set (or `emptySet`, whose `Light()` is `0`) and sums it. -/
def TotalLight (r : Registry) (net : Nat) : Nat :=
  match lookupA r net with
  | some inner => lightFold inner
  | none => 0

/-- `manager.SubsetWeight`: wrapping uint64 sum over the requested node IDs
(the `set.Set` is modelled by its enumeration), skipping absent ones. -/
def SubsetWeight (r : Registry) (net : Nat) (nodeIDs : List Nat) : Nat :=
  match lookupA r net with
  | none => 0
  | some inner =>
    nodeIDs.foldl
      (fun acc nid =>
        match lookupA inner nid with
        | some v => add64wrap acc v.Weight
        | none => acc) 0

/-- `manager.GetMap`: the per-network snapshot (in the value model the copy
of the map is the map itself; aliasing of the records is treated in the
heap-indirection model below). -/
def GetMap (r : Registry) (net : Nat) : Inner := (lookupA r net).getD []

end Manager

/-- A mutation of the registry. -/
inductive RegOp where
  | addStaker (net node : Nat) (pk : List Nat) (tx light : Nat)
  | addWeight (net node light : Nat)
  | removeWeight (net node light : Nat)
deriving DecidableEq

/-- Run one mutation. -/
def applyOp (r : Registry) : RegOp → Registry
  | .addStaker net node pk tx light => Manager.AddStaker r net node pk tx light
  | .addWeight net node light => Manager.AddWeight r net node light
  | .removeWeight net node light => Manager.RemoveWeight r net node light

/-- Run a sequence of mutations. -/
def execOps (r : Registry) (ops : List RegOp) : Registry := ops.foldl applyOp r

/-- Under-`2^64` discipline for an operation sequence: every `AddStaker`
weight is positive and uint64-representable, and no `AddWeight` wraps the
affected record past `MaxUint64`. -/
def OpsSafe : Registry → List RegOp → Prop
  | _, [] => True
  | r, op :: rest =>
    (match op with
     | .addStaker _ _ _ _ light => 0 < light ∧ light ≤ U64MAX
     | .addWeight net node light =>
       match Manager.GetValidator r net node with
       | some v => v.Light + light ≤ U64MAX
       | none => True
     | .removeWeight _ _ _ => True) ∧ OpsSafe (applyOp r op) rest

/-- Map-like registry state: network keys and node keys are duplicate-free. -/
def WFReg (r : Registry) : Prop :=
  (r.map (·.1)).Nodup ∧ ∀ p ∈ r, (p.2.map (·.1)).Nodup

/-- Every stored record has positive, uint64-representable weight, with the
`Weight` alias equal to `Light`. -/
def GoodReg (r : Registry) : Prop :=
  ∀ net node v, Manager.GetValidator r net node = some v →
    0 < v.Light ∧ v.Light ≤ U64MAX ∧ v.Weight = v.Light

/-! ## Heap-indirection model of the manager

The manager stores `*GetValidatorOutput` pointers.  `GetMap` copies the
per-network map but shares the pointers with the registry.  To state aliasing
claims, the pointers are made explicit: records live in a `heap` (addressed by
index) and the nested maps hold addresses.  `writeThrough` models mutating a
record through a pointer obtained from a returned map. -/

structure HManager where
  heap : List GetValidatorOutput
  nets : List (Nat × List (Nat × Nat))
deriving DecidableEq

namespace HManager

/-- The manager of `NewManager()`. -/
def empty : HManager := ⟨[], []⟩

/-- `manager.AddStaker`: allocate a fresh record
(`&GetValidatorOutput{...}`) and point the map entry at it. -/
def AddStaker (m : HManager) (net node : Nat) (pk : List Nat) (tx light : Nat) :
    HManager :=
  let addr := m.heap.length
  let inner := (lookupA m.nets net).getD []
  ⟨m.heap ++ [⟨node, pk, [], light, light, tx⟩],
   setA m.nets net (setA inner node addr)⟩

/-- `manager.GetMap`: copy the per-network map; the addresses (pointers) are
shared with the registry. -/
def GetMap (m : HManager) (net : Nat) : List (Nat × Nat) :=
  (lookupA m.nets net).getD []

/-- Pointer dereference. -/
def deref (m : HManager) (addr : Nat) : Option GetValidatorOutput :=
  m.heap[addr]?

/-- `manager.GetValidator` (returns the record behind the stored pointer). -/
def GetValidator (m : HManager) (net node : Nat) : Option GetValidatorOutput :=
  (lookupA m.nets net).bind fun inner => (lookupA inner node).bind m.deref

/-- `manager.GetWeight` = `GetLight`. -/
def GetWeight (m : HManager) (net node : Nat) : Nat :=
  ((m.GetValidator net node).map (·.Light)).getD 0

/-- Overwrite the record a pointer refers to (`*p = v`), as a caller can do
with a pointer taken from the structure `GetMap` returned. -/
def writeThrough (m : HManager) (addr : Nat) (v : GetValidatorOutput) : HManager :=
  ⟨m.heap.set addr v, m.nets⟩

end HManager

/-! ## The lexicographic byte order -/

theorem bytesCompare_eq_iff (a : List Nat) : ∀ b, bytesCompare a b = .eq ↔ a = b := by
  induction a with
  | nil => intro b; cases b <;> simp [bytesCompare]
  | cons x as ih =>
    intro b
    cases b with
    | nil => simp [bytesCompare]
    | cons y bs =>
      simp only [bytesCompare]
      rcases Nat.lt_trichotomy x y with h | h | h
      · simp only [if_pos h]
        constructor
        · intro hc; cases hc
        · rintro ⟨rfl, -⟩; omega
      · subst h
        simp [Nat.lt_irrefl, ih bs]
      · rw [if_neg (by omega), if_pos h]
        constructor
        · intro hc; cases hc
        · rintro ⟨rfl, -⟩; omega

theorem bytesCompare_swap (a : List Nat) : ∀ b, bytesCompare b a = (bytesCompare a b).swap := by
  induction a with
  | nil => intro b; cases b <;> simp [bytesCompare, Ordering.swap]
  | cons x as ih =>
    intro b
    cases b with
    | nil => simp [bytesCompare, Ordering.swap]
    | cons y bs =>
      simp only [bytesCompare]
      rcases Nat.lt_trichotomy x y with h | h | h
      · rw [if_pos h, if_neg (by omega), if_pos h]; rfl
      · subst h
        simp [Nat.lt_irrefl, ih bs]
      · rw [if_pos h, if_neg (by omega), if_pos h]; rfl

theorem bytesCompare_le_trans (a : List Nat) :
    ∀ b c, bytesCompare a b ≠ .gt → bytesCompare b c ≠ .gt → bytesCompare a c ≠ .gt := by
  induction a with
  | nil =>
    intro b c _ _
    cases c <;> simp [bytesCompare]
  | cons x as ih =>
    intro b c h1 h2
    cases b with
    | nil => exact absurd (show bytesCompare (x :: as) [] = .gt from rfl) h1
    | cons y bs =>
      cases c with
      | nil => exact absurd (show bytesCompare (y :: bs) [] = .gt from rfl) h2
      | cons z cs =>
        have hxy : x ≤ y := by
          by_contra hlt
          exact h1 (by simp only [bytesCompare]; rw [if_neg (by omega), if_pos (by omega)])
        have hyz : y ≤ z := by
          by_contra hlt
          exact h2 (by simp only [bytesCompare]; rw [if_neg (by omega), if_pos (by omega)])
        simp only [bytesCompare]
        by_cases hxz : x < z
        · rw [if_pos hxz]; intro hc; cases hc
        · have hx : x = z := by omega
          have hy : x = y := by omega
          rw [if_neg hxz, if_neg (by omega)]
          have h1' : bytesCompare as bs ≠ .gt := by
            have := h1
            simp only [bytesCompare, hy, Nat.lt_irrefl, if_neg (Nat.lt_irrefl y)] at this
            simpa [hy] using this
          have h2' : bytesCompare bs cs ≠ .gt := by
            have := h2
            have hyz' : y = z := by omega
            simp only [bytesCompare, hyz', Nat.lt_irrefl, if_neg (Nat.lt_irrefl z)] at this
            simpa using this
          exact ih bs cs h1' h2'

theorem bytesCompare_le_antisymm {a b : List Nat}
    (h1 : bytesCompare a b ≠ .gt) (h2 : bytesCompare b a ≠ .gt) : a = b := by
  have hs := bytesCompare_swap a b
  cases hc : bytesCompare a b with
  | lt => rw [hc] at hs; exact absurd hs h2
  | eq => exact (bytesCompare_eq_iff a b).1 hc
  | gt => exact absurd hc h1

theorem cmpLe_iff (v o : CanonicalValidator) :
    cmpLe v o = true ↔ bytesCompare v.PublicKeyBytes o.PublicKeyBytes ≠ .gt := by
  unfold cmpLe CanonicalValidator.Compare
  cases h : bytesCompare v.PublicKeyBytes o.PublicKeyBytes <;> simp

theorem cmpLe_trans (a b c : CanonicalValidator)
    (h1 : cmpLe a b) (h2 : cmpLe b c) : cmpLe a c = true := by
  rw [cmpLe_iff] at *
  exact bytesCompare_le_trans _ _ _ h1 h2

theorem cmpLe_total (a b : CanonicalValidator) : cmpLe a b || cmpLe b a := by
  simp only [Bool.or_eq_true, cmpLe_iff]
  cases h : bytesCompare a.PublicKeyBytes b.PublicKeyBytes with
  | lt => exact Or.inl (by simp [h])
  | eq => exact Or.inl (by simp [h])
  | gt =>
    refine Or.inr ?_
    rw [bytesCompare_swap a.PublicKeyBytes b.PublicKeyBytes, h]
    simp [Ordering.swap]

/-- The strict canonical order on validators. -/
def cvLt (a b : CanonicalValidator) : Prop :=
  bytesCompare a.PublicKeyBytes b.PublicKeyBytes = .lt

theorem cvLt_asymm {a b : CanonicalValidator} (h : cvLt a b) : ¬ cvLt b a := by
  intro h'
  unfold cvLt at h h'
  rw [bytesCompare_swap, h] at h'
  cases h'

/-! ## Characterization of the `FlattenValidatorSet` loop -/

@[simp] theorem wsum_nil : wsum [] = 0 := rfl

@[simp] theorem wsum_cons (v : GetValidatorOutput) (l : List GetValidatorOutput) :
    wsum (v :: l) = v.Weight + wsum l := by simp [wsum]

@[simp] theorem cvWsum_nil : cvWsum [] = 0 := rfl

@[simp] theorem cvWsum_cons (cv : CanonicalValidator) (l : List CanonicalValidator) :
    cvWsum (cv :: l) = cv.Weight + cvWsum l := by simp [cvWsum]

theorem cvWsum_insertRec (m : List CanonicalValidator) (pk : List Nat) (w nid : Nat) :
    cvWsum (insertRec m pk w nid) = cvWsum m + w := by
  induction m with
  | nil => simp [insertRec]
  | cons cv rest ih =>
    by_cases h : cv.PublicKeyBytes = pk
    · simp [insertRec, h]; omega
    · simp [insertRec, h, ih]; omega

theorem mergeInto_ok (m : List CanonicalValidator) (pk : List Nat) (w nid : Nat)
    (h : cvWsum m + w ≤ U64MAX) :
    mergeInto m pk w nid = .ok (insertRec m pk w nid) := by
  induction m with
  | nil => rfl
  | cons cv rest ih =>
    by_cases hk : cv.PublicKeyBytes = pk
    · have hw : cv.Weight + w ≤ U64MAX := by simp at h; omega
      simp [mergeInto, insertRec, hk, add64, hw]
    · have h' : cvWsum rest + w ≤ U64MAX := by simp at h; omega
      simp [mergeInto, insertRec, hk, ih h']

theorem flattenGo_ok (decode : List Nat → Option (List Nat)) (l : List GetValidatorOutput) :
    ∀ m t, cvWsum m ≤ t → t + wsum l ≤ U64MAX →
    flattenGo decode l m t = .ok (buildMap decode l m, t + wsum l) := by
  induction l with
  | nil => intro m t _ _; simp [flattenGo, buildMap]
  | cons v rest ih =>
    intro m t hinv hle
    have hw : t + v.Weight ≤ U64MAX := by simp at hle; omega
    have hrest : (t + v.Weight) + wsum rest ≤ U64MAX := by simp at hle; omega
    simp only [flattenGo, add64, if_pos hw]
    by_cases hpk : v.PublicKey = []
    · rw [if_pos hpk, ih m (t + v.Weight) (le_trans hinv (by omega)) hrest]
      simp [buildMap, decodedKey, hpk]
      omega
    · rw [if_neg hpk]
      cases hdec : decode v.PublicKey with
      | none =>
        rw [ih m (t + v.Weight) (le_trans hinv (by omega)) hrest]
        simp [buildMap, decodedKey, hpk, hdec]
        omega
      | some pk =>
        have hmerge : cvWsum m + v.Weight ≤ U64MAX := by omega
        dsimp only
        rw [mergeInto_ok m pk v.Weight v.NodeID hmerge]
        dsimp only
        rw [ih (insertRec m pk v.Weight v.NodeID) (t + v.Weight)
          (by rw [cvWsum_insertRec]; omega) hrest]
        simp [buildMap, decodedKey, hpk, hdec]
        omega

theorem flattenGo_err (decode : List Nat → Option (List Nat)) (l : List GetValidatorOutput) :
    ∀ m t, cvWsum m ≤ t → t ≤ U64MAX → U64MAX < t + wsum l →
    flattenGo decode l m t = .error .weightOverflow := by
  induction l with
  | nil => intro m t _ ht hlt; simp at hlt; omega
  | cons v rest ih =>
    intro m t hinv ht hlt
    by_cases hw : t + v.Weight ≤ U64MAX
    · simp only [flattenGo, add64, if_pos hw]
      have hrest : U64MAX < (t + v.Weight) + wsum rest := by simp at hlt; omega
      by_cases hpk : v.PublicKey = []
      · rw [if_pos hpk]
        exact ih m (t + v.Weight) (by omega) hw hrest
      · rw [if_neg hpk]
        cases hdec : decode v.PublicKey with
        | none => exact ih m (t + v.Weight) (by omega) hw hrest
        | some pk =>
          dsimp only
          rw [mergeInto_ok m pk v.Weight v.NodeID (by omega)]
          dsimp only
          exact ih (insertRec m pk v.Weight v.NodeID) (t + v.Weight)
            (by rw [cvWsum_insertRec]; omega) hw hrest
    · simp [flattenGo, add64, hw]

theorem flatten_ok_char (decode : List Nat → Option (List Nat))
    (l : List GetValidatorOutput) (h : wsum l ≤ U64MAX) :
    FlattenValidatorSet decode l = .ok ⟨sortValidators (buildMap decode l []), wsum l⟩ := by
  unfold FlattenValidatorSet
  rw [flattenGo_ok decode l [] 0 (by simp) (by simpa using h)]
  simp

theorem flatten_err_char (decode : List Nat → Option (List Nat))
    (l : List GetValidatorOutput) (h : U64MAX < wsum l) :
    FlattenValidatorSet decode l = .error .weightOverflow := by
  unfold FlattenValidatorSet
  rw [flattenGo_err decode l [] 0 (by simp) (by simp [U64MAX]) (by simpa using h)]

theorem flatten_error_iff (decode : List Nat → Option (List Nat))
    (l : List GetValidatorOutput) (e : VErr) :
    FlattenValidatorSet decode l = .error e ↔ e = .weightOverflow ∧ U64MAX < wsum l := by
  by_cases h : wsum l ≤ U64MAX
  · rw [flatten_ok_char decode l h]
    constructor
    · intro hc; cases hc
    · intro hc; omega
  · rw [flatten_err_char decode l (by omega)]
    constructor
    · intro hc
      injection hc with hc
      exact ⟨hc.symm, by omega⟩
    · rintro ⟨rfl, -⟩; rfl

theorem sumWeightGo_ok (l : List CanonicalValidator) :
    ∀ w, w + cvWsum l ≤ U64MAX → sumWeightGo l w = .ok (w + cvWsum l) := by
  induction l with
  | nil => intro w _; simp [sumWeightGo]
  | cons v rest ih =>
    intro w h
    have hw : w + v.Weight ≤ U64MAX := by simp at h; omega
    simp only [sumWeightGo, add64, if_pos hw]
    rw [ih (w + v.Weight) (by simp at h; omega)]
    simp; omega

theorem sumWeightGo_err (l : List CanonicalValidator) :
    ∀ w, w ≤ U64MAX → U64MAX < w + cvWsum l → sumWeightGo l w = .error .weightOverflow := by
  induction l with
  | nil => intro w hw h; simp at h; omega
  | cons v rest ih =>
    intro w hw h
    by_cases hvw : w + v.Weight ≤ U64MAX
    · simp only [sumWeightGo, add64, if_pos hvw]
      exact ih (w + v.Weight) hvw (by simp at h; omega)
    · simp [sumWeightGo, add64, hvw]

theorem sumWeight_ok_char (l : List CanonicalValidator) (h : cvWsum l ≤ U64MAX) :
    SumWeight l = .ok (cvWsum l) := by
  unfold SumWeight
  rw [sumWeightGo_ok l 0 (by simpa using h)]
  simp

theorem sumWeight_err_char (l : List CanonicalValidator) (h : U64MAX < cvWsum l) :
    SumWeight l = .error .weightOverflow := by
  unfold SumWeight
  exact sumWeightGo_err l 0 (by simp [U64MAX]) (by simpa using h)

@[simp] theorem lookupCV_nil (k : List Nat) : lookupCV [] k = none := rfl

theorem lookupCV_cons (cv : CanonicalValidator) (m : List CanonicalValidator) (k : List Nat) :
    lookupCV (cv :: m) k = if cv.PublicKeyBytes = k then some cv else lookupCV m k := by
  by_cases h : cv.PublicKeyBytes = k <;> simp [lookupCV, List.find?_cons, h]

theorem lookupCV_eq_none_iff (m : List CanonicalValidator) (k : List Nat) :
    lookupCV m k = none ↔ k ∉ cvKeys m := by
  simp only [lookupCV, List.find?_eq_none, cvKeys, List.mem_map, decide_eq_true_eq]
  constructor
  · rintro h ⟨cv, hmem, hk⟩
    exact h cv hmem hk
  · intro h cv hmem hk
    exact h ⟨cv, hmem, hk⟩

theorem lookupCV_insertRec (m : List CanonicalValidator) (pk : List Nat) (w nid : Nat)
    (k : List Nat) :
    lookupCV (insertRec m pk w nid) k =
      if k = pk then
        match lookupCV m pk with
        | some cv => some { cv with Weight := cv.Weight + w, NodeIDs := cv.NodeIDs ++ [nid] }
        | none => some ⟨pk, w, [nid]⟩
      else lookupCV m k := by
  induction m with
  | nil =>
    by_cases h : k = pk
    · subst h; simp [insertRec, lookupCV_cons]
    · have h' : pk ≠ k := fun hc => h hc.symm
      simp [insertRec, lookupCV_cons, h, h']
  | cons cv rest ih =>
    by_cases hk : cv.PublicKeyBytes = pk
    · by_cases hkk : k = pk
      · subst hkk
        simp [insertRec, hk, lookupCV_cons]
      · have hck : pk ≠ k := fun hc => hkk hc.symm
        simp [insertRec, hk, lookupCV_cons, hck, hkk]
    · by_cases hkk : k = pk
      · subst hkk
        simp only [insertRec, if_neg hk, lookupCV_cons, if_neg hk, ih, if_pos rfl]
      · simp only [insertRec, if_neg hk, lookupCV_cons, ih, if_neg hkk]

@[simp] theorem contrib_nil (decode : List Nat → Option (List Nat)) (k : List Nat) :
    contrib decode k [] = [] := rfl

theorem contrib_cons (decode : List Nat → Option (List Nat)) (k : List Nat)
    (v : GetValidatorOutput) (l : List GetValidatorOutput) :
    contrib decode k (v :: l) =
      if decodedKey decode v = some k then v :: contrib decode k l
      else contrib decode k l := by
  by_cases h : decodedKey decode v = some k <;> simp [contrib, List.filter_cons, h]

/-- Fold the contribution of a record list into an existing canonical entry. -/
def addContrib (c : List GetValidatorOutput) (cv : CanonicalValidator) : CanonicalValidator :=
  { cv with Weight := cv.Weight + wsum c, NodeIDs := cv.NodeIDs ++ c.map (·.NodeID) }

theorem lookupCV_buildMap (decode : List Nat → Option (List Nat))
    (l : List GetValidatorOutput) :
    ∀ m k, lookupCV (buildMap decode l m) k =
      match lookupCV m k with
      | some cv => some (addContrib (contrib decode k l) cv)
      | none =>
        if contrib decode k l = [] then none
        else some ⟨k, wsum (contrib decode k l), (contrib decode k l).map (·.NodeID)⟩ := by
  induction l with
  | nil =>
    intro m k
    cases hm : lookupCV m k with
    | some cv => cases cv; simp [buildMap, hm, addContrib]
    | none => simp [buildMap, hm]
  | cons v rest ih =>
    intro m k
    cases hd : decodedKey decode v with
    | none =>
      have hc : contrib decode k (v :: rest) = contrib decode k rest := by
        rw [contrib_cons, if_neg (by simp [hd])]
      simp only [buildMap, hd]
      rw [ih, hc]
    | some pk =>
      simp only [buildMap, hd]
      rw [ih]
      by_cases hk : k = pk
      · subst hk
        have hc : contrib decode k (v :: rest) = v :: contrib decode k rest := by
          rw [contrib_cons, if_pos hd]
        rw [lookupCV_insertRec, if_pos rfl, hc]
        cases hm : lookupCV m k with
        | some cv =>
          cases cv
          simp only [addContrib, List.map_cons, wsum_cons]
          congr 1
          simp [List.append_assoc]
          omega
        | none =>
          simp only [addContrib, List.map_cons, wsum_cons]
          simp
      · have hc : contrib decode k (v :: rest) = contrib decode k rest := by
          rw [contrib_cons, if_neg (by simp [hd]; exact fun hc => hk hc.symm)]
        rw [lookupCV_insertRec, if_neg hk, hc]

theorem cvKeys_insertRec (m : List CanonicalValidator) (pk : List Nat) (w nid : Nat) :
    cvKeys (insertRec m pk w nid) =
      if lookupCV m pk = none then cvKeys m ++ [pk] else cvKeys m := by
  induction m with
  | nil => simp [insertRec, cvKeys]
  | cons cv rest ih =>
    by_cases hk : cv.PublicKeyBytes = pk
    · simp [insertRec, hk, cvKeys, lookupCV_cons]
    · simp only [insertRec, if_neg hk, cvKeys, List.map_cons, lookupCV_cons, if_neg hk]
      by_cases hrest : lookupCV rest pk = none
      · simp only [cvKeys] at ih
        rw [if_pos hrest] at ih
        simp [ih, hrest]
      · simp only [cvKeys] at ih
        rw [if_neg hrest] at ih
        simp [ih, hrest]

theorem nodup_cvKeys_insertRec {m : List CanonicalValidator} (pk : List Nat) (w nid : Nat)
    (h : (cvKeys m).Nodup) : (cvKeys (insertRec m pk w nid)).Nodup := by
  rw [cvKeys_insertRec]
  by_cases hl : lookupCV m pk = none
  · rw [if_pos hl]
    have : pk ∉ cvKeys m := (lookupCV_eq_none_iff m pk).1 hl
    simp [List.nodup_append, h, this]
  · rw [if_neg hl]; exact h

theorem nodup_cvKeys_buildMap (decode : List Nat → Option (List Nat))
    (l : List GetValidatorOutput) :
    ∀ m, (cvKeys m).Nodup → (cvKeys (buildMap decode l m)).Nodup := by
  induction l with
  | nil => intro m h; exact h
  | cons v rest ih =>
    intro m h
    cases hd : decodedKey decode v with
    | none => simpa [buildMap, hd] using ih m h
    | some pk => simpa [buildMap, hd] using ih _ (nodup_cvKeys_insertRec pk v.Weight v.NodeID h)

theorem mem_insertRec {cv : CanonicalValidator} (m : List CanonicalValidator)
    (pk : List Nat) (w nid : Nat) (h : cv ∈ insertRec m pk w nid) :
    cv ∈ m ∨ cv.PublicKeyBytes = pk := by
  induction m with
  | nil =>
    simp [insertRec] at h
    subst h; exact Or.inr rfl
  | cons hd rest ih =>
    by_cases hk : hd.PublicKeyBytes = pk
    · simp only [insertRec, if_pos hk] at h
      rcases List.mem_cons.1 h with h | h
      · subst h; exact Or.inr hk
      · exact Or.inl (List.mem_cons_of_mem _ h)
    · simp only [insertRec, if_neg hk] at h
      rcases List.mem_cons.1 h with h | h
      · subst h; exact Or.inl (List.mem_cons_self _ _)
      · rcases ih h with h | h
        · exact Or.inl (List.mem_cons_of_mem _ h)
        · exact Or.inr h

theorem mem_buildMap {cv : CanonicalValidator} (decode : List Nat → Option (List Nat))
    (l : List GetValidatorOutput) :
    ∀ m, cv ∈ buildMap decode l m →
      cv ∈ m ∨ ∃ v ∈ l, decodedKey decode v = some cv.PublicKeyBytes := by
  induction l with
  | nil => intro m h; exact Or.inl h
  | cons v rest ih =>
    intro m h
    cases hd : decodedKey decode v with
    | none =>
      rw [buildMap, hd] at h
      rcases ih m h with h | ⟨v', hv', hk⟩
      · exact Or.inl h
      · exact Or.inr ⟨v', List.mem_cons_of_mem _ hv', hk⟩
    | some pk =>
      rw [buildMap, hd] at h
      rcases ih _ h with h | ⟨v', hv', hk⟩
      · rcases mem_insertRec _ _ _ _ h with h | h
        · exact Or.inl h
        · exact Or.inr ⟨v, List.mem_cons_self _ _, by rw [hd, h]⟩
      · exact Or.inr ⟨v', List.mem_cons_of_mem _ hv', hk⟩

theorem cvWsum_buildMap_le (decode : List Nat → Option (List Nat))
    (l : List GetValidatorOutput) :
    ∀ m, cvWsum (buildMap decode l m) ≤ cvWsum m + wsum l := by
  induction l with
  | nil => intro m; simp [buildMap]
  | cons v rest ih =>
    intro m
    cases hd : decodedKey decode v with
    | none =>
      rw [buildMap, hd]
      calc cvWsum (buildMap decode rest m) ≤ cvWsum m + wsum rest := ih m
        _ ≤ cvWsum m + wsum (v :: rest) := by rw [wsum_cons]; omega
    | some pk =>
      rw [buildMap, hd]
      calc cvWsum (buildMap decode rest (insertRec m pk v.Weight v.NodeID))
          ≤ cvWsum (insertRec m pk v.Weight v.NodeID) + wsum rest := ih _
        _ = cvWsum m + wsum (v :: rest) := by rw [cvWsum_insertRec, wsum_cons]; omega

theorem lookupCV_eq_some_mem {m : List CanonicalValidator} {k : List Nat}
    {cv : CanonicalValidator} (h : lookupCV m k = some cv) :
    cv ∈ m ∧ cv.PublicKeyBytes = k := by
  refine ⟨List.mem_of_find?_eq_some h, ?_⟩
  have hp := List.find?_some h
  simpa using hp

theorem lookupCV_of_mem : ∀ (m : List CanonicalValidator) (cv : CanonicalValidator),
    (cvKeys m).Nodup → cv ∈ m → lookupCV m cv.PublicKeyBytes = some cv := by
  intro m
  induction m with
  | nil => intro cv _ h; cases h
  | cons a rest ih =>
    intro cv hn hmem
    rcases List.mem_cons.1 hmem with h | h
    · subst h; simp [lookupCV_cons]
    · simp only [cvKeys, List.map_cons, List.nodup_cons] at hn
      have hne : a.PublicKeyBytes ≠ cv.PublicKeyBytes := by
        intro hc
        exact hn.1 (hc ▸ List.mem_map_of_mem (·.PublicKeyBytes) h)
      rw [lookupCV_cons, if_neg hne]
      exact ih cv hn.2 h

theorem lookupCV_perm {m₁ m₂ : List CanonicalValidator} (h : m₁.Perm m₂)
    (hn : (cvKeys m₁).Nodup) (k : List Nat) : lookupCV m₁ k = lookupCV m₂ k := by
  have hn₂ : (cvKeys m₂).Nodup := by
    have hmap := (h.map (fun cv : CanonicalValidator => cv.PublicKeyBytes)).nodup_iff
    simpa [cvKeys] using hmap.1 (by simpa [cvKeys] using hn)
  cases h₁ : lookupCV m₁ k with
  | some cv =>
    obtain ⟨hmem, hk⟩ := lookupCV_eq_some_mem h₁
    subst hk
    exact (lookupCV_of_mem m₂ cv hn₂ (h.mem_iff.1 hmem)).symm
  | none =>
    symm
    rw [lookupCV_eq_none_iff] at h₁ ⊢
    intro hc
    exact h₁ ((h.map (·.PublicKeyBytes)).mem_iff.2 hc)

theorem pairwise_cvLt_of_sorted {s : List CanonicalValidator}
    (hs : s.Pairwise (fun a b => cmpLe a b = true)) (hn : (cvKeys s).Nodup) :
    s.Pairwise cvLt := by
  have hpair : s.Pairwise (fun a b => a.PublicKeyBytes ≠ b.PublicKeyBytes) := by
    simpa [cvKeys, List.Nodup, List.pairwise_map] using hn
  refine (hs.and hpair).imp ?_
  rintro a b ⟨hle, hne⟩
  have hle' := (cmpLe_iff a b).1 hle
  unfold cvLt
  cases hc : bytesCompare a.PublicKeyBytes b.PublicKeyBytes with
  | lt => rfl
  | eq => exact absurd ((bytesCompare_eq_iff _ _).1 hc) hne
  | gt => exact absurd hc hle'

theorem sortValidators_perm (l : List CanonicalValidator) : (sortValidators l).Perm l :=
  List.mergeSort_perm l cmpLe

theorem sortValidators_pairwise_le (l : List CanonicalValidator) :
    (sortValidators l).Pairwise (fun a b => cmpLe a b = true) := by
  have := @List.sorted_mergeSort CanonicalValidator cmpLe
    (fun a b c h1 h2 => cmpLe_trans a b c h1 h2) (fun a b => cmpLe_total a b) l
  simpa [sortValidators] using this

theorem lookupCV_tail_none {a : CanonicalValidator} {as : List CanonicalValidator}
    (h : (a :: as).Pairwise cvLt) : lookupCV as a.PublicKeyBytes = none := by
  rw [lookupCV_eq_none_iff]
  intro hc
  simp only [cvKeys, List.mem_map] at hc
  obtain ⟨x, hx, hkx⟩ := hc
  have hlt : cvLt a x := (List.pairwise_cons.1 h).1 x hx
  unfold cvLt at hlt
  rw [hkx] at hlt
  rw [(bytesCompare_eq_iff a.PublicKeyBytes a.PublicKeyBytes).2 rfl] at hlt
  cases hlt

/-- The data of a canonical validator that is deterministic across input
permutations: its key bytes and merged weight. -/
def projKW (cv : CanonicalValidator) : List Nat × Nat := (cv.PublicKeyBytes, cv.Weight)

theorem sorted_lookup_ext : ∀ (s₁ s₂ : List CanonicalValidator),
    s₁.Pairwise cvLt → s₂.Pairwise cvLt →
    (∀ k, (lookupCV s₁ k).map projKW = (lookupCV s₂ k).map projKW) →
    s₁.map projKW = s₂.map projKW := by
  intro s₁
  induction s₁ with
  | nil =>
    intro s₂ _ _ h
    cases s₂ with
    | nil => rfl
    | cons b bs =>
      have hb := h b.PublicKeyBytes
      rw [lookupCV_cons, if_pos rfl] at hb
      simp at hb
  | cons a as ih =>
    intro s₂ hs₁ hs₂ h
    cases s₂ with
    | nil =>
      have ha := h a.PublicKeyBytes
      rw [lookupCV_cons, if_pos rfl] at ha
      simp at ha
    | cons b bs =>
      have hha : lookupCV (a :: as) a.PublicKeyBytes = some a := by
        rw [lookupCV_cons, if_pos rfl]
      have hhb : lookupCV (b :: bs) b.PublicKeyBytes = some b := by
        rw [lookupCV_cons, if_pos rfl]
      have hk : a.PublicKeyBytes = b.PublicKeyBytes := by
        by_contra hne
        have h₁ := h a.PublicKeyBytes
        rw [hha] at h₁
        cases h₂ : lookupCV (b :: bs) a.PublicKeyBytes with
        | none => rw [h₂] at h₁; simp at h₁
        | some cv =>
          obtain ⟨hmem, hkk⟩ := lookupCV_eq_some_mem h₂
          rcases List.mem_cons.1 hmem with hcb | hmem'
          · exact hne (hcb ▸ hkk).symm
          · have hltb : cvLt b cv := (List.pairwise_cons.1 hs₂).1 cv hmem'
            have h₂' := h b.PublicKeyBytes
            rw [hhb] at h₂'
            cases h₃ : lookupCV (a :: as) b.PublicKeyBytes with
            | none => rw [h₃] at h₂'; simp at h₂'
            | some cv' =>
              obtain ⟨hmem₃, hkk₃⟩ := lookupCV_eq_some_mem h₃
              rcases List.mem_cons.1 hmem₃ with hca | hmem₃'
              · exact hne (hca ▸ hkk₃)
              · have hlta : cvLt a cv' := (List.pairwise_cons.1 hs₁).1 cv' hmem₃'
                unfold cvLt at hlta hltb
                rw [hkk₃] at hlta
                rw [hkk] at hltb
                rw [bytesCompare_swap] at hltb
                rw [hlta] at hltb
                cases hltb
      have hpb : projKW a = projKW b := by
        have h₁ := h a.PublicKeyBytes
        rw [hha, lookupCV_cons, if_pos hk.symm] at h₁
        simpa using h₁
      have htail : as.map projKW = bs.map projKW := by
        refine ih bs (List.pairwise_cons.1 hs₁).2 (List.pairwise_cons.1 hs₂).2 ?_
        intro k
        by_cases hkk : k = a.PublicKeyBytes
        · subst hkk
          rw [lookupCV_tail_none hs₁, hk, lookupCV_tail_none hs₂]
        · have h₁ := h k
          rw [lookupCV_cons, if_neg (fun hc => hkk hc.symm),
            lookupCV_cons, if_neg (fun hc => hkk (hk ▸ hc).symm)] at h₁
          exact h₁
      simp [List.map_cons, hpb, htail]

/-- Bundle: what a successful `FlattenValidatorSet` run returns. -/
theorem flatten_result_spec (decode : List Nat → Option (List Nat))
    (l : List GetValidatorOutput) (r : CanonicalValidatorSet)
    (h : FlattenValidatorSet decode l = .ok r) :
    r.TotalWeight = wsum l ∧
    r.Validators.Pairwise cvLt ∧
    (cvKeys r.Validators).Nodup ∧
    (∀ k, lookupCV r.Validators k = lookupCV (buildMap decode l []) k) ∧
    r.Validators.Perm (buildMap decode l []) := by
  have hle : wsum l ≤ U64MAX := by
    by_contra hlt
    rw [flatten_err_char decode l (by omega)] at h
    cases h
  rw [flatten_ok_char decode l hle] at h
  injection h with h
  subst h
  have hnodup0 : (cvKeys (buildMap decode l [])).Nodup :=
    nodup_cvKeys_buildMap decode l [] (by simp [cvKeys])
  have hperm := sortValidators_perm (buildMap decode l [])
  have hnodup : (cvKeys (sortValidators (buildMap decode l []))).Nodup := by
    have hmap := (hperm.map (fun cv : CanonicalValidator => cv.PublicKeyBytes)).nodup_iff
    simpa [cvKeys] using hmap.2 (by simpa [cvKeys] using hnodup0)
  refine ⟨rfl, pairwise_cvLt_of_sorted (sortValidators_pairwise_le _) hnodup, hnodup,
    fun k => lookupCV_perm hperm hnodup k, hperm⟩

theorem sumWeight_error_iff (l : List CanonicalValidator) (e : VErr) :
    SumWeight l = .error e ↔ e = .weightOverflow ∧ U64MAX < cvWsum l := by
  by_cases h : cvWsum l ≤ U64MAX
  · rw [sumWeight_ok_char l h]
    constructor
    · intro hc; cases hc
    · intro hc; omega
  · rw [sumWeight_err_char l (by omega)]
    constructor
    · intro hc
      injection hc with hc
      exact ⟨hc.symm, by omega⟩
    · rintro ⟨rfl, -⟩; rfl

/-! ## Claim theorems: canonicalization pipeline -/

/-- A concrete stand-in for the external BLS decode/re-encode roundtrip,
used on concrete inputs: every nonempty byte string decodes to itself. -/
def idDecode : List Nat → Option (List Nat) := fun b => some b

/-- Record with `NodeID` 1, key bytes `[7]`, weight 1. -/
def cw1 : GetValidatorOutput := ⟨1, [7], [], 1, 1, 0⟩

/-- Record with `NodeID` 2, the same key bytes `[7]`, weight 1. -/
def cw2 : GetValidatorOutput := ⟨2, [7], [], 1, 1, 0⟩

theorem flatten_cw12_eval :
    FlattenValidatorSet idDecode [cw1, cw2] = .ok ⟨[⟨[7], 2, [1, 2]⟩], 2⟩ := by
  rw [flatten_ok_char idDecode _ (by decide)]
  rw [show buildMap idDecode [cw1, cw2] [] = [⟨[7], 2, [1, 2]⟩] from by decide]
  simp [sortValidators]
  decide

theorem flatten_cw21_eval :
    FlattenValidatorSet idDecode [cw2, cw1] = .ok ⟨[⟨[7], 2, [2, 1]⟩], 2⟩ := by
  rw [flatten_ok_char idDecode _ (by decide)]
  rw [show buildMap idDecode [cw2, cw1] [] = [⟨[7], 2, [2, 1]⟩] from by decide]
  simp [sortValidators]
  decide

/-- C1, counterexample: enumerating the same two-record snapshot in the two
possible orders yields different `CanonicalValidatorSet` values — the merged
entry's `NodeIDs` list follows the enumeration order (`[1, 2]` vs `[2, 1]`) —
so `FlattenValidatorSet` does not produce the *same result* on every
permutation. -/
theorem flatten_perm_nodeids_counterexample :
    [cw1, cw2].Perm [cw2, cw1] ∧
    FlattenValidatorSet idDecode [cw1, cw2] = .ok ⟨[⟨[7], 2, [1, 2]⟩], 2⟩ ∧
    FlattenValidatorSet idDecode [cw2, cw1] = .ok ⟨[⟨[7], 2, [2, 1]⟩], 2⟩ ∧
    (⟨[⟨[7], 2, [1, 2]⟩], 2⟩ : CanonicalValidatorSet) ≠ ⟨[⟨[7], 2, [2, 1]⟩], 2⟩ :=
  ⟨by decide, flatten_cw12_eval, flatten_cw21_eval, by decide⟩

/-- C1 (amended): for any two enumeration orders of the same snapshot,
`FlattenValidatorSet` fails identically; on success both runs return the same
`TotalWeight` and the same sequence of (canonical key bytes, merged weight)
pairs in the same order, and each canonical entry's contributor `NodeIDs`
list is the same up to order (its internal order follows the enumeration
order, as the counterexample shows). -/
theorem flatten_deterministic (decode : List Nat → Option (List Nat))
    (l₁ l₂ : List GetValidatorOutput) (hperm : l₁.Perm l₂) :
    (∀ e, FlattenValidatorSet decode l₁ = .error e ↔
          FlattenValidatorSet decode l₂ = .error e) ∧
    (∀ r₁ r₂, FlattenValidatorSet decode l₁ = .ok r₁ →
      FlattenValidatorSet decode l₂ = .ok r₂ →
      r₁.TotalWeight = r₂.TotalWeight ∧
      r₁.Validators.map projKW = r₂.Validators.map projKW ∧
      (∀ k cv₁ cv₂, lookupCV r₁.Validators k = some cv₁ →
        lookupCV r₂.Validators k = some cv₂ → cv₁.NodeIDs.Perm cv₂.NodeIDs)) := by
  have hw : wsum l₁ = wsum l₂ := by
    unfold wsum
    exact (hperm.map (·.Weight)).sum_eq
  have hcontrib : ∀ k, (contrib decode k l₁).Perm (contrib decode k l₂) :=
    fun k => hperm.filter _
  have hcwsum : ∀ k, wsum (contrib decode k l₁) = wsum (contrib decode k l₂) := by
    intro k
    unfold wsum
    exact ((hcontrib k).map (·.Weight)).sum_eq
  have hcnil : ∀ k, contrib decode k l₁ = [] ↔ contrib decode k l₂ = [] := by
    intro k
    constructor
    · intro h; exact ((h ▸ hcontrib k).symm).eq_nil
    · intro h; exact (h ▸ hcontrib k).eq_nil
  refine ⟨fun e => by rw [flatten_error_iff, flatten_error_iff, hw], ?_⟩
  intro r₁ r₂ h₁ h₂
  obtain ⟨ht₁, hp₁, hn₁, hl₁, -⟩ := flatten_result_spec decode l₁ r₁ h₁
  obtain ⟨ht₂, hp₂, hn₂, hl₂, -⟩ := flatten_result_spec decode l₂ r₂ h₂
  have hlook : ∀ k, (lookupCV r₁.Validators k).map projKW =
      (lookupCV r₂.Validators k).map projKW := by
    intro k
    rw [hl₁ k, hl₂ k, lookupCV_buildMap, lookupCV_buildMap]
    simp only [lookupCV_nil]
    by_cases hnil : contrib decode k l₁ = []
    · rw [if_pos hnil, if_pos ((hcnil k).1 hnil)]
    · rw [if_neg hnil, if_neg (fun hc => hnil ((hcnil k).2 hc))]
      simp [projKW, hcwsum k]
  refine ⟨by rw [ht₁, ht₂, hw], sorted_lookup_ext _ _ hp₁ hp₂ hlook, ?_⟩
  intro k cv₁ cv₂ hk₁ hk₂
  rw [hl₁ k, lookupCV_buildMap] at hk₁
  rw [hl₂ k, lookupCV_buildMap] at hk₂
  simp only [lookupCV_nil] at hk₁ hk₂
  by_cases hnil : contrib decode k l₁ = []
  · rw [if_pos hnil] at hk₁; cases hk₁
  · rw [if_neg hnil] at hk₁
    rw [if_neg (fun hc => hnil ((hcnil k).2 hc))] at hk₂
    injection hk₁ with hk₁
    injection hk₂ with hk₂
    rw [← hk₁, ← hk₂]
    exact (hcontrib k).map (·.NodeID)

/-- C1, witness for the amended theorem: instantiated on the two enumeration
orders of the concrete duplicate-key snapshot. -/
theorem flatten_deterministic_witness :
    (⟨[⟨[7], 2, [1, 2]⟩], 2⟩ : CanonicalValidatorSet).TotalWeight =
      (⟨[⟨[7], 2, [2, 1]⟩], 2⟩ : CanonicalValidatorSet).TotalWeight ∧
    (⟨[⟨[7], 2, [1, 2]⟩], 2⟩ : CanonicalValidatorSet).Validators.map projKW =
      (⟨[⟨[7], 2, [2, 1]⟩], 2⟩ : CanonicalValidatorSet).Validators.map projKW ∧
    (⟨[7], 2, [1, 2]⟩ : CanonicalValidator).NodeIDs.Perm
      (⟨[7], 2, [2, 1]⟩ : CanonicalValidator).NodeIDs := by
  obtain ⟨-, h⟩ := flatten_deterministic idDecode [cw1, cw2] [cw2, cw1] (by decide)
  obtain ⟨h1, h2, h3⟩ := h _ _ flatten_cw12_eval flatten_cw21_eval
  exact ⟨h1, h2, h3 [7] _ _ (by decide) (by decide)⟩

/-- C2: weight accumulation in `FlattenValidatorSet` and `SumWeight` is
overflow-checked: a call fails (with the weight-overflow error and no partial
result — the error branch carries no canonical set and no sum) exactly when
the mathematical sum of the weights exceeds `MaxUint64`; at the boundary,
`MaxUint64 + 1` fails (as distinct validators and as a duplicate-key merge)
while `(MaxUint64 - 1) + 1` succeeds and yields exactly `MaxUint64`. -/
theorem weight_overflow_boundary :
    (∀ (decode : List Nat → Option (List Nat)) l e,
      FlattenValidatorSet decode l = .error e ↔
        e = .weightOverflow ∧ U64MAX < wsum l) ∧
    (∀ vdrs e, SumWeight vdrs = .error e ↔ e = .weightOverflow ∧ U64MAX < cvWsum vdrs) ∧
    FlattenValidatorSet idDecode
      [⟨1, [1], [], 0, U64MAX, 0⟩, ⟨2, [2], [], 0, 1, 0⟩] = .error .weightOverflow ∧
    FlattenValidatorSet idDecode
      [⟨1, [7], [], 0, U64MAX, 0⟩, ⟨2, [7], [], 0, 1, 0⟩] = .error .weightOverflow ∧
    (∃ r, FlattenValidatorSet idDecode
      [⟨1, [1], [], 0, U64MAX - 1, 0⟩, ⟨2, [2], [], 0, 1, 0⟩] = .ok r ∧
      r.TotalWeight = U64MAX) ∧
    SumWeight [⟨[1], U64MAX, [1]⟩, ⟨[2], 1, [2]⟩] = .error .weightOverflow ∧
    SumWeight [⟨[1], U64MAX - 1, [1]⟩, ⟨[2], 1, [2]⟩] = .ok U64MAX := by
  refine ⟨flatten_error_iff, sumWeight_error_iff, ?_, ?_, ?_, ?_, ?_⟩
  · exact flatten_err_char idDecode _ (by decide)
  · exact flatten_err_char idDecode _ (by decide)
  · exact ⟨_, flatten_ok_char idDecode _ (by decide), by decide⟩
  · exact sumWeight_err_char _ (by decide)
  · rw [sumWeight_ok_char _ (by decide),
      show cvWsum [⟨[1], U64MAX - 1, [1]⟩, ⟨[2], 1, [2]⟩] = U64MAX from by decide]

/-- C2, witness: the error characterization applied to the theorem's own
concrete overflowing snapshot. -/
theorem weight_overflow_boundary_witness :
    VErr.weightOverflow = VErr.weightOverflow ∧
    U64MAX < wsum [⟨1, [1], [], 0, U64MAX, 0⟩, ⟨2, [2], [], 0, 1, 0⟩] :=
  (weight_overflow_boundary.1 idDecode
    [⟨1, [1], [], 0, U64MAX, 0⟩, ⟨2, [2], [], 0, 1, 0⟩] .weightOverflow).1
    weight_overflow_boundary.2.2.1

/-- C3: on success `TotalWeight` is the sum of the weights of *all* input
records; records with empty or undecodable keys are skipped silently (they
contribute no canonical entry and cause no error), so the canonical entries'
weights sum to at most `TotalWeight`; empty input yields the empty set with
zero total and no error, and weight totals alone never make a decodable
snapshot fail below the overflow bound. -/
theorem flatten_weight_conservation :
    (∀ (decode : List Nat → Option (List Nat)) l r,
      FlattenValidatorSet decode l = .ok r →
      r.TotalWeight = wsum l ∧
      cvWsum r.Validators ≤ r.TotalWeight ∧
      ∀ cv ∈ r.Validators, ∃ v ∈ l, decodedKey decode v = some cv.PublicKeyBytes) ∧
    (∀ decode : List Nat → Option (List Nat),
      FlattenValidatorSet decode [] = .ok ⟨[], 0⟩) ∧
    (∀ (decode : List Nat → Option (List Nat)) l, wsum l ≤ U64MAX →
      ∃ r, FlattenValidatorSet decode l = .ok r) := by
  refine ⟨?_, ?_, fun decode l h => ⟨_, flatten_ok_char decode l h⟩⟩
  · intro decode l r h
    obtain ⟨ht, -, -, -, hperm⟩ := flatten_result_spec decode l r h
    refine ⟨ht, ?_, ?_⟩
    · have hsum : cvWsum r.Validators = cvWsum (buildMap decode l []) := by
        unfold cvWsum
        exact (hperm.map (·.Weight)).sum_eq
      have hle := cvWsum_buildMap_le decode l []
      rw [ht, hsum]
      simpa using hle
    · intro cv hcv
      have hmem := hperm.mem_iff.1 hcv
      rcases mem_buildMap decode l [] hmem with hc | hc
      · cases hc
      · exact hc
  · intro decode
    rw [flatten_ok_char decode [] (by simp [U64MAX])]
    simp [sortValidators, buildMap]

/-- C3, witness: instantiated on a three-record snapshot (valid key, empty
key, undecodable key under a decoder rejecting `[9]`). -/
theorem flatten_weight_conservation_witness :
    (⟨[⟨[7], 5, [1]⟩], 12⟩ : CanonicalValidatorSet).TotalWeight =
      wsum [⟨1, [7], [], 0, 5, 0⟩, ⟨2, [], [], 0, 3, 0⟩, ⟨3, [9], [], 0, 4, 0⟩] ∧
    cvWsum (⟨[⟨[7], 5, [1]⟩], 12⟩ : CanonicalValidatorSet).Validators ≤
      (⟨[⟨[7], 5, [1]⟩], 12⟩ : CanonicalValidatorSet).TotalWeight ∧
    ∃ v ∈ [⟨1, [7], [], 0, 5, 0⟩, ⟨2, [], [], 0, 3, 0⟩, ⟨3, [9], [], 0, 4, 0⟩],
      decodedKey (fun b => if b = [9] then none else some b) v =
        some (⟨[7], 5, [1]⟩ : CanonicalValidator).PublicKeyBytes := by
  obtain ⟨h1, h2, h3⟩ :=
    flatten_weight_conservation.1 (fun b => if b = [9] then none else some b)
      [⟨1, [7], [], 0, 5, 0⟩, ⟨2, [], [], 0, 3, 0⟩, ⟨3, [9], [], 0, 4, 0⟩]
      ⟨[⟨[7], 5, [1]⟩], 12⟩
      (by
        rw [flatten_ok_char _ _ (by decide)]
        rw [show buildMap (fun b => if b = [9] then none else some b)
          [⟨1, [7], [], 0, 5, 0⟩, ⟨2, [], [], 0, 3, 0⟩, ⟨3, [9], [], 0, 4, 0⟩] [] =
          [⟨[7], 5, [1]⟩] from by decide]
        simp [sortValidators])
  exact ⟨h1, h2, h3 ⟨[7], 5, [1]⟩ (by decide)⟩

/-- C4: in every produced canonical set no two entries share key bytes and
adjacent entries satisfy `Compare(prev, curr) <= 0`; two records with the same
decoded key and different `NodeID`s merge into a single entry carrying the
summed weight and both contributors. -/
theorem canonical_dedup_sorted_merge :
    (∀ (decode : List Nat → Option (List Nat)) l r,
      FlattenValidatorSet decode l = .ok r →
      (cvKeys r.Validators).Nodup ∧
      r.Validators.Chain' (fun a b => a.Compare b ≠ .gt)) ∧
    (∀ (decode : List Nat → Option (List Nat)) (v₁ v₂ : GetValidatorOutput) (k : List Nat),
      decodedKey decode v₁ = some k → decodedKey decode v₂ = some k →
      v₁.NodeID ≠ v₂.NodeID → v₁.Weight + v₂.Weight ≤ U64MAX →
      FlattenValidatorSet decode [v₁, v₂] =
        .ok ⟨[⟨k, v₁.Weight + v₂.Weight, [v₁.NodeID, v₂.NodeID]⟩],
             v₁.Weight + v₂.Weight⟩) := by
  constructor
  · intro decode l r h
    obtain ⟨-, hpair, hnodup, -, -⟩ := flatten_result_spec decode l r h
    refine ⟨hnodup, List.Pairwise.chain' (hpair.imp ?_)⟩
    intro a b hab
    unfold cvLt at hab
    unfold CanonicalValidator.Compare
    rw [hab]
    intro hc
    cases hc
  · intro decode v₁ v₂ k h₁ h₂ hne hsum
    have hws : wsum [v₁, v₂] = v₁.Weight + v₂.Weight := by simp
    have hb : buildMap decode [v₁, v₂] [] =
        [⟨k, v₁.Weight + v₂.Weight, [v₁.NodeID, v₂.NodeID]⟩] := by
      simp [buildMap, h₁, h₂, insertRec]
    rw [flatten_ok_char decode _ (by rw [hws]; exact hsum), hb, hws]
    simp [sortValidators]

/-- C4, witness: the merge conjunct at the concrete duplicate-key snapshot of
the repository's own test (weights 100 and 200 merging to 300). -/
theorem canonical_dedup_sorted_merge_witness :
    FlattenValidatorSet idDecode
      [⟨1, [7], [], 0, 100, 0⟩, ⟨2, [7], [], 0, 200, 0⟩] =
      .ok ⟨[⟨[7], 300, [1, 2]⟩], 300⟩ :=
  canonical_dedup_sorted_merge.2 idDecode ⟨1, [7], [], 0, 100, 0⟩
    ⟨2, [7], [], 0, 200, 0⟩ [7] (by decide) (by decide) (by decide) (by decide)

/-! ## `FilterValidators` -/

theorem lt_two_pow_iff_testBit : ∀ (k x : Nat),
    x < 2 ^ k ↔ ∀ i, k ≤ i → x.testBit i = false := by
  intro k
  induction k with
  | zero =>
    intro x
    constructor
    · intro h i _
      have hx : x = 0 := by omega
      subst hx
      exact Nat.zero_testBit i
    · intro h
      have hx : x = 0 :=
        Nat.eq_of_testBit_eq fun i => by rw [h i (Nat.zero_le i), Nat.zero_testBit]
      omega
  | succ k ih =>
    intro x
    constructor
    · intro h i hi
      exact Nat.testBit_lt_two_pow
        (lt_of_lt_of_le h (Nat.pow_le_pow_right (by omega) hi))
    · intro h
      have hdiv : x / 2 < 2 ^ k := by
        rw [ih]
        intro i hi
        rw [← Nat.testBit_add_one]
        exact h (i + 1) (by omega)
      have hdm := Nat.div_add_mod x 2
      have hm : x % 2 < 2 := Nat.mod_lt x (by omega)
      rw [Nat.pow_succ]
      omega

theorem filterValidators_error_iff (indices : Nat) (vdrs : List CanonicalValidator)
    (e : VErr) :
    FilterValidators indices vdrs = .error e ↔
      e = .unknownValidator ∧ ∃ i, vdrs.length ≤ i ∧ indices.testBit i = true := by
  unfold FilterValidators
  by_cases h : bitLen indices > vdrs.length
  · rw [if_pos h]
    constructor
    · intro hc
      injection hc with hc
      refine ⟨hc.symm, ?_⟩
      by_contra hno
      push_neg at hno
      have hall : ∀ i, vdrs.length ≤ i → indices.testBit i = false := by
        intro i hi
        have := hno i hi
        exact Bool.not_eq_true _ ▸ this
      have hlt : indices < 2 ^ vdrs.length :=
        (lt_two_pow_iff_testBit vdrs.length indices).2 hall
      have hsize : Nat.size indices ≤ vdrs.length := Nat.size_le.2 hlt
      unfold bitLen at h
      omega
    · rintro ⟨rfl, -⟩; rfl
  · rw [if_neg h]
    constructor
    · intro hc; cases hc
    · rintro ⟨rfl, i, hi, hbit⟩
      exfalso
      have hsize : Nat.size indices ≤ vdrs.length := by unfold bitLen at h; omega
      have hlt : indices < 2 ^ vdrs.length := Nat.size_le.1 hsize
      have hge := Nat.testBit_implies_ge hbit
      have hpow : (2 : Nat) ^ vdrs.length ≤ 2 ^ i := Nat.pow_le_pow_right (by omega) hi
      omega

theorem filterGo_enumFrom (indices : Nat) (l : List CanonicalValidator) :
    ∀ i, filterGo indices i l =
      ((l.enumFrom i).filter (fun p => indices.testBit p.1)).map (·.2) := by
  induction l with
  | nil => intro i; rfl
  | cons v rest ih =>
    intro i
    rw [List.enumFrom_cons]
    by_cases h : indices.testBit i
    · simp only [filterGo, bitsContains, h, if_pos trivial, List.filter_cons]
      simp [h, ih]
    · simp only [filterGo, bitsContains, h, List.filter_cons]
      simp [h, ih]

theorem filterGo_sublist (indices : Nat) (l : List CanonicalValidator) :
    ∀ i, (filterGo indices i l).Sublist l := by
  induction l with
  | nil => intro i; exact List.Sublist.refl []
  | cons v rest ih =>
    intro i
    by_cases h : bitsContains indices i
    · simpa [filterGo, h] using (ih (i + 1)).cons₂ v
    · simpa [filterGo, h] using (ih (i + 1)).cons v

theorem filterGo_zero (l : List CanonicalValidator) : ∀ i, filterGo 0 i l = [] := by
  induction l with
  | nil => intro i; rfl
  | cons v rest ih =>
    intro i
    simp [filterGo, bitsContains, Nat.zero_testBit, ih]

/-- C5: `FilterValidators` fails with the unknown-validator error exactly when
some selector bit sits at a position at or beyond the sequence length; on
success it returns exactly the validators at set-bit positions, in canonical
order (a sublist of the input); a lone bit at index `length` fails, a lone
highest bit at `length - 1` succeeds, and the all-clear selector returns the
empty list. -/
theorem filter_validators_bounds :
    (∀ indices vdrs e, FilterValidators indices vdrs = .error e ↔
      e = .unknownValidator ∧ ∃ i, vdrs.length ≤ i ∧ indices.testBit i = true) ∧
    (∀ indices vdrs l, FilterValidators indices vdrs = .ok l →
      l = ((vdrs.enum).filter (fun p => indices.testBit p.1)).map (·.2) ∧
      l.Sublist vdrs) ∧
    (∀ vdrs : List CanonicalValidator,
      FilterValidators (2 ^ vdrs.length) vdrs = .error .unknownValidator) ∧
    (∀ vdrs : List CanonicalValidator, vdrs ≠ [] →
      ∃ l, FilterValidators (2 ^ (vdrs.length - 1)) vdrs = .ok l) ∧
    (∀ vdrs : List CanonicalValidator, FilterValidators 0 vdrs = .ok []) := by
  refine ⟨filterValidators_error_iff, ?_, ?_, ?_, ?_⟩
  · intro indices vdrs l h
    unfold FilterValidators at h
    by_cases hb : bitLen indices > vdrs.length
    · rw [if_pos hb] at h; cases h
    · rw [if_neg hb] at h
      injection h with h
      subst h
      exact ⟨by rw [filterGo_enumFrom]; rfl, filterGo_sublist indices vdrs 0⟩
  · intro vdrs
    unfold FilterValidators bitLen
    rw [if_pos (by rw [Nat.size_pow]; omega)]
  · intro vdrs hne
    have hlen : 1 ≤ vdrs.length := by
      cases vdrs with
      | nil => exact absurd rfl hne
      | cons a l => simp
    refine ⟨filterGo (2 ^ (vdrs.length - 1)) 0 vdrs, ?_⟩
    unfold FilterValidators bitLen
    rw [if_neg (by rw [Nat.size_pow]; omega)]
  · intro vdrs
    unfold FilterValidators bitLen
    rw [if_neg (by rw [Nat.size_zero]; omega), filterGo_zero]

/-- C5, witness: the error branch at a concrete out-of-range selector
(bit 5 against two validators, the repository test's own instance) and the
success branch at the highest legal bit. -/
theorem filter_validators_bounds_witness :
    FilterValidators 32 [⟨[1], 100, []⟩, ⟨[2], 200, []⟩] = .error .unknownValidator ∧
    ∃ l, FilterValidators
      (2 ^ ([(⟨[1], 100, []⟩ : CanonicalValidator), ⟨[2], 200, []⟩].length - 1))
      [⟨[1], 100, []⟩, ⟨[2], 200, []⟩] = .ok l :=
  ⟨(filter_validators_bounds.1 32 [⟨[1], 100, []⟩, ⟨[2], 200, []⟩]
      .unknownValidator).2 ⟨rfl, 5, by decide, by decide⟩,
   filter_validators_bounds.2.2.2.1 [⟨[1], 100, []⟩, ⟨[2], 200, []⟩] (by decide)⟩

/-! ## Association-list lemmas -/

theorem lookupA_setA {β : Type} (l : List (Nat × β)) (k : Nat) (b : β) :
    ∀ k', lookupA (setA l k b) k' = if k = k' then some b else lookupA l k' := by
  induction l with
  | nil =>
    intro k'
    by_cases h : k = k' <;> simp [setA, lookupA, h]
  | cons p rest ih =>
    obtain ⟨k₀, b₀⟩ := p
    intro k'
    by_cases h0 : k₀ = k
    · subst h0
      by_cases h' : k₀ = k'
      · subst h'; simp [setA, lookupA]
      · simp [setA, lookupA, h', fun hc : k₀ = k' => h']
    · by_cases h' : k₀ = k'
      · subst h'
        have hkk : k ≠ k₀ := fun hc => h0 hc.symm
        simp [setA, lookupA, h0, hkk]
      · simp [setA, lookupA, h0, h', ih]

theorem lookupA_eq_none_iff {β : Type} (l : List (Nat × β)) (k : Nat) :
    lookupA l k = none ↔ k ∉ l.map (·.1) := by
  induction l with
  | nil => simp [lookupA]
  | cons p rest ih =>
    obtain ⟨k₀, b₀⟩ := p
    by_cases h : k₀ = k
    · subst h; simp [lookupA]
    · rw [List.map_cons]
      simp only [lookupA, if_neg h, List.mem_cons]
      rw [ih]
      constructor
      · rintro hnk (hc | hc)
        · exact h hc.symm
        · exact hnk hc
      · intro hc hk
        exact hc (Or.inr hk)

theorem length_setA_absent {β : Type} (l : List (Nat × β)) (k : Nat) (b : β)
    (h : lookupA l k = none) : (setA l k b).length = l.length + 1 := by
  induction l with
  | nil => rfl
  | cons p rest ih =>
    obtain ⟨k₀, b₀⟩ := p
    by_cases h0 : k₀ = k
    · subst h0; simp [lookupA] at h
    · simp only [lookupA, if_neg h0] at h
      simp [setA, h0, ih h]

theorem length_setA_present {β : Type} (l : List (Nat × β)) (k : Nat) (b b₀ : β)
    (h : lookupA l k = some b₀) : (setA l k b).length = l.length := by
  induction l with
  | nil => simp [lookupA] at h
  | cons p rest ih =>
    obtain ⟨k₁, b₁⟩ := p
    by_cases h0 : k₁ = k
    · simp [setA, h0]
    · simp only [lookupA, if_neg h0] at h
      simp [setA, h0, ih h]

theorem eraseA_sublist {β : Type} (l : List (Nat × β)) (k : Nat) :
    (eraseA l k).Sublist l := by
  induction l with
  | nil => exact List.Sublist.refl []
  | cons p rest ih =>
    obtain ⟨k₀, b₀⟩ := p
    by_cases h : k₀ = k
    · simpa [eraseA, h] using List.sublist_cons_self (k₀, b₀) rest
    · simpa [eraseA, h] using ih.cons₂ (k₀, b₀)

theorem length_eraseA {β : Type} (l : List (Nat × β)) (k : Nat) (b₀ : β)
    (h : lookupA l k = some b₀) : (eraseA l k).length + 1 = l.length := by
  induction l with
  | nil => simp [lookupA] at h
  | cons p rest ih =>
    obtain ⟨k₁, b₁⟩ := p
    by_cases h0 : k₁ = k
    · simp [eraseA, h0]
    · simp only [lookupA, if_neg h0] at h
      simp [eraseA, h0, ih h]

theorem lookupA_eraseA_ne {β : Type} (l : List (Nat × β)) (k k' : Nat) (h : k ≠ k') :
    lookupA (eraseA l k) k' = lookupA l k' := by
  induction l with
  | nil => rfl
  | cons p rest ih =>
    obtain ⟨k₀, b₀⟩ := p
    by_cases h0 : k₀ = k
    · subst h0
      simp [eraseA, lookupA, h]
    · simp [eraseA, lookupA, h0, ih]

theorem lookupA_eraseA_self {β : Type} (l : List (Nat × β)) (k : Nat)
    (hn : (l.map (·.1)).Nodup) : lookupA (eraseA l k) k = none := by
  induction l with
  | nil => rfl
  | cons p rest ih =>
    obtain ⟨k₀, b₀⟩ := p
    simp only [List.map_cons, List.nodup_cons] at hn
    by_cases h0 : k₀ = k
    · subst h0
      simp only [eraseA, if_pos rfl]
      rw [lookupA_eq_none_iff]
      exact hn.1
    · simp [eraseA, lookupA, h0, ih hn.2]

theorem mem_setA {β : Type} (l : List (Nat × β)) (k : Nat) (b : β) :
    ∀ p, p ∈ setA l k b → p ∈ l ∨ p = (k, b) := by
  induction l with
  | nil =>
    intro p hp
    have hp' : p = (k, b) := by simpa [setA] using hp
    exact Or.inr hp'
  | cons q rest ih =>
    obtain ⟨k₀, b₀⟩ := q
    intro p hp
    by_cases h0 : k₀ = k
    · subst h0
      have hp' : p ∈ (k₀, b) :: rest := by simpa [setA] using hp
      rcases List.mem_cons.1 hp' with h1 | h1
      · exact Or.inr h1
      · exact Or.inl (List.mem_cons_of_mem _ h1)
    · have hp' : p ∈ (k₀, b₀) :: setA rest k b := by simpa [setA, h0] using hp
      rcases List.mem_cons.1 hp' with h1 | h1
      · exact Or.inl (by rw [h1]; exact List.mem_cons_self _ _)
      · rcases ih p h1 with h2 | h2
        · exact Or.inl (List.mem_cons_of_mem _ h2)
        · exact Or.inr h2

theorem nodup_setA {β : Type} (l : List (Nat × β)) (k : Nat) (b : β)
    (hn : (l.map (·.1)).Nodup) : ((setA l k b).map (·.1)).Nodup := by
  induction l with
  | nil => simp [setA]
  | cons p rest ih =>
    obtain ⟨k₀, b₀⟩ := p
    simp only [List.map_cons, List.nodup_cons] at hn
    by_cases h0 : k₀ = k
    · subst h0
      have hset : setA ((k₀, b₀) :: rest) k₀ b = (k₀, b) :: rest := by simp [setA]
      rw [hset, List.map_cons, List.nodup_cons]
      exact hn
    · have hset : setA ((k₀, b₀) :: rest) k b = (k₀, b₀) :: setA rest k b := by
        simp [setA, h0]
      rw [hset, List.map_cons, List.nodup_cons]
      refine ⟨?_, ih hn.2⟩
      intro hc
      rcases List.mem_map.1 hc with ⟨q, hq, hqk⟩
      rcases mem_setA rest k b q hq with hq' | hq'
      · have hmem : q.1 ∈ List.map (fun x => x.1) rest := List.mem_map_of_mem _ hq'
        rw [hqk] at hmem
        exact hn.1 hmem
      · rw [hq'] at hqk
        exact h0 hqk.symm

theorem nodup_eraseA {β : Type} (l : List (Nat × β)) (k : Nat)
    (hn : (l.map (·.1)).Nodup) : ((eraseA l k).map (·.1)).Nodup :=
  hn.sublist ((eraseA_sublist l k).map (·.1))

theorem lookupA_mem {β : Type} (l : List (Nat × β)) (k : Nat) (b : β)
    (h : lookupA l k = some b) : (k, b) ∈ l := by
  induction l with
  | nil => cases h
  | cons p rest ih =>
    obtain ⟨k₀, b₀⟩ := p
    by_cases h0 : k₀ = k
    · subst h0
      simp only [lookupA, if_pos rfl] at h
      injection h with h
      subst h
      exact List.mem_cons_self _ _
    · simp only [lookupA, if_neg h0] at h
      exact List.mem_cons_of_mem _ (ih h)

theorem sub64wrap_eq (a b : Nat) (hb : b ≤ a) (ha : a ≤ U64MAX) :
    sub64wrap a b = a - b := by
  unfold sub64wrap
  unfold U64MAX at ha
  have hb2 : b % 2 ^ 64 = b := Nat.mod_eq_of_lt (by omega)
  rw [hb2, show a + 2 ^ 64 - b = (a - b) + 2 ^ 64 by omega, Nat.add_mod_right]
  exact Nat.mod_eq_of_lt (by omega)

/-! ## Registry frame lemmas -/

theorem getValidator_setNode (r : Registry) (net node : Nat) (inner : Inner)
    (rec : GetValidatorOutput) (hinner : inner = (lookupA r net).getD [])
    (n nd : Nat) :
    Manager.GetValidator (setA r net (setA inner node rec)) n nd =
      if net = n then (if node = nd then some rec else Manager.GetValidator r n nd)
      else Manager.GetValidator r n nd := by
  unfold Manager.GetValidator
  rw [lookupA_setA]
  by_cases hn : net = n
  · subst hn
    rw [if_pos rfl, if_pos rfl, Option.some_bind, lookupA_setA]
    by_cases hnd : node = nd
    · rw [if_pos hnd, if_pos hnd]
    · rw [if_neg hnd, if_neg hnd]
      cases hr : lookupA r net with
      | some i => rw [hr] at hinner; simp at hinner; rw [hinner, Option.some_bind]
      | none => rw [hr] at hinner; simp at hinner; rw [hinner]; rfl
  · rw [if_neg hn, if_neg hn]

theorem getValidator_eraseNet (r : Registry) (net : Nat)
    (hn : (r.map (·.1)).Nodup) (n nd : Nat) :
    Manager.GetValidator (eraseA r net) n nd =
      if net = n then none else Manager.GetValidator r n nd := by
  unfold Manager.GetValidator
  by_cases h : net = n
  · subst h
    rw [if_pos rfl, lookupA_eraseA_self r net hn]
    rfl
  · rw [if_neg h, lookupA_eraseA_ne r net n h]

theorem getValidator_setEraseNode (r : Registry) (net node : Nat) (inner : Inner)
    (hnet : lookupA r net = some inner) (hinner : (inner.map (·.1)).Nodup)
    (n nd : Nat) :
    Manager.GetValidator (setA r net (eraseA inner node)) n nd =
      if net = n then (if node = nd then none else Manager.GetValidator r n nd)
      else Manager.GetValidator r n nd := by
  unfold Manager.GetValidator
  rw [lookupA_setA]
  by_cases hn : net = n
  · subst hn
    rw [if_pos rfl, if_pos rfl, Option.some_bind, hnet, Option.some_bind]
    by_cases hnd : node = nd
    · subst hnd
      rw [if_pos rfl, lookupA_eraseA_self inner node hinner]
    · rw [if_neg hnd, lookupA_eraseA_ne inner node nd hnd]
  · rw [if_neg hn, if_neg hn]

/-- The inner map a registry mutation is about to write. -/
theorem wf_inner_nodup {r : Registry} (hwf : WFReg r) (net : Nat) :
    (((lookupA r net).getD []).map (·.1)).Nodup := by
  cases h : lookupA r net with
  | none => simp
  | some inner =>
    have hmem := lookupA_mem r net inner h
    simpa using hwf.2 (net, inner) hmem

theorem wf_setNode {r : Registry} (hwf : WFReg r) (net node : Nat) (inner : Inner)
    (rec : GetValidatorOutput) (hinner : inner = (lookupA r net).getD []) :
    WFReg (setA r net (setA inner node rec)) := by
  refine ⟨nodup_setA r net _ hwf.1, ?_⟩
  intro p hp
  rcases mem_setA r net _ p hp with hp' | hp'
  · exact hwf.2 p hp'
  · subst hp'
    exact nodup_setA inner node rec (hinner ▸ wf_inner_nodup hwf net)

theorem wf_setInner {r : Registry} (hwf : WFReg r) (net : Nat) (inner' : Inner)
    (hinner : (inner'.map (·.1)).Nodup) : WFReg (setA r net inner') := by
  refine ⟨nodup_setA r net _ hwf.1, ?_⟩
  intro p hp
  rcases mem_setA r net _ p hp with hp' | hp'
  · exact hwf.2 p hp'
  · subst hp'
    exact hinner

theorem wf_eraseNet {r : Registry} (hwf : WFReg r) (net : Nat) :
    WFReg (eraseA r net) := by
  refine ⟨nodup_eraseA r net hwf.1, ?_⟩
  intro p hp
  exact hwf.2 p ((eraseA_sublist r net).mem hp)

theorem wf_addStaker {r : Registry} (hwf : WFReg r) (net node : Nat)
    (pk : List Nat) (tx light : Nat) :
    WFReg (Manager.AddStaker r net node pk tx light) :=
  wf_setNode hwf net node _ _ rfl

theorem wf_addWeight {r : Registry} (hwf : WFReg r) (net node light : Nat) :
    WFReg (Manager.AddWeight r net node light) := by
  unfold Manager.AddWeight
  cases hnet : lookupA r net with
  | none => exact wf_setInner hwf net [] (by simp)
  | some inner =>
    dsimp only
    cases hnode : lookupA inner node with
    | none => exact hwf
    | some val =>
      exact wf_setNode hwf net node inner _ (by rw [hnet]; rfl)

theorem wf_removeWeight {r : Registry} (hwf : WFReg r) (net node light : Nat) :
    WFReg (Manager.RemoveWeight r net node light) := by
  unfold Manager.RemoveWeight
  cases hnet : lookupA r net with
  | none => exact hwf
  | some inner =>
    dsimp only
    cases hnode : lookupA inner node with
    | none => exact hwf
    | some val =>
      dsimp only
      have hin : (inner.map (·.1)).Nodup := by
        simpa using hwf.2 (net, inner) (lookupA_mem r net inner hnet)
      by_cases hz : (if light ≤ val.Light then
          { val with Light := sub64wrap val.Light light,
                     Weight := sub64wrap val.Weight light }
        else { val with Light := 0, Weight := 0 }).Light = 0
      · rw [if_pos hz]
        by_cases he : eraseA inner node = []
        · rw [if_pos he]
          exact wf_eraseNet hwf net
        · rw [if_neg he]
          exact wf_setInner hwf net _ (nodup_eraseA inner node hin)
      · rw [if_neg hz]
        exact wf_setNode hwf net node inner _ (by rw [hnet]; rfl)

/-! ## Claim theorems: registry -/

/-- C6: removing at least the whole current weight clamps at zero (no
underflow) and deletes the record; if it was the network's last record the
network entry disappears too, so a network count query returns 0 and the
network is no longer listed.  The `≤ U64MAX` bounds encode the uint64 typing
of the stored weight and of the delta. -/
theorem remove_weight_clamps_deletes (r : Registry) (net node light : Nat)
    (v : GetValidatorOutput) (hwf : WFReg r)
    (hv : Manager.GetValidator r net node = some v)
    (hge : v.Light ≤ light) (hvmax : v.Light ≤ U64MAX) (hlmax : light ≤ U64MAX) :
    Manager.GetValidator (Manager.RemoveWeight r net node light) net node = none ∧
    Manager.GetLight (Manager.RemoveWeight r net node light) net node = 0 ∧
    Manager.Count (Manager.RemoveWeight r net node light) net =
      Manager.Count r net - 1 ∧
    (Manager.Count r net = 1 →
      lookupA (Manager.RemoveWeight r net node light) net = none ∧
      Manager.Count (Manager.RemoveWeight r net node light) net = 0 ∧
      Manager.NumNets (Manager.RemoveWeight r net node light) =
        Manager.NumNets r - 1) := by
  obtain ⟨inner, hnet, hnode⟩ : ∃ inner, lookupA r net = some inner ∧
      lookupA inner node = some v := by
    unfold Manager.GetValidator at hv
    cases hr : lookupA r net with
    | none => rw [hr] at hv; cases hv
    | some inner => rw [hr, Option.some_bind] at hv; exact ⟨inner, rfl, hv⟩
  have hin : (inner.map (·.1)).Nodup := by
    simpa using hwf.2 (net, inner) (lookupA_mem r net inner hnet)
  have hcount : Manager.Count r net = inner.length := by
    unfold Manager.Count
    rw [hnet]
    rfl
  have hzero : (if light ≤ v.Light then
      { v with Light := sub64wrap v.Light light,
               Weight := sub64wrap v.Weight light }
    else { v with Light := 0, Weight := 0 }).Light = 0 := by
    by_cases hb : light ≤ v.Light
    · rw [if_pos hb]
      have : v.Light = light := by omega
      simp [this, sub64wrap_eq light light (le_refl light) (this ▸ hvmax)]
    · rw [if_neg hb]
  have hred : Manager.RemoveWeight r net node light =
      (if eraseA inner node = [] then eraseA r net
       else setA r net (eraseA inner node)) := by
    unfold Manager.RemoveWeight
    rw [hnet]
    dsimp only
    rw [hnode]
    dsimp only
    rw [if_pos hzero]
  have hlen := length_eraseA inner node v hnode
  by_cases he : eraseA inner node = []
  · rw [hred, if_pos he]
    have hnone : lookupA (eraseA r net) net = none := lookupA_eraseA_self r net hwf.1
    have hgv : Manager.GetValidator (eraseA r net) net node = none := by
      unfold Manager.GetValidator
      rw [hnone]
      rfl
    refine ⟨hgv, by unfold Manager.GetLight; rw [hgv]; rfl, ?_, ?_⟩
    · unfold Manager.Count
      rw [hnone, hnet]
      have : inner.length = 1 := by
        rw [← hlen, he]
        rfl
      simp [this]
    · intro hc
      refine ⟨hnone, by unfold Manager.Count; rw [hnone]; rfl, ?_⟩
      unfold Manager.NumNets
      have := length_eraseA r net inner hnet
      omega
  · rw [hred, if_neg he]
    have hgv : Manager.GetValidator (setA r net (eraseA inner node)) net node = none := by
      rw [getValidator_setEraseNode r net node inner hnet hin, if_pos rfl, if_pos rfl]
    refine ⟨hgv, by unfold Manager.GetLight; rw [hgv]; rfl, ?_, ?_⟩
    · unfold Manager.Count
      rw [lookupA_setA, if_pos rfl, hnet]
      simp
      omega
    · intro hc
      exfalso
      rw [hcount] at hc
      have : (eraseA inner node).length = 0 := by omega
      exact he (List.length_eq_zero.1 this)

/-- C6, witness: starting from a single staker with weight 100 in one network,
removing 150 clamps, deletes the record, and removes the network entry. -/
theorem remove_weight_clamps_deletes_witness :
    Manager.GetValidator
      (Manager.RemoveWeight (Manager.AddStaker [] 0 0 [] 0 100) 0 0 150) 0 0 = none ∧
    Manager.GetLight
      (Manager.RemoveWeight (Manager.AddStaker [] 0 0 [] 0 100) 0 0 150) 0 0 = 0 ∧
    Manager.Count (Manager.RemoveWeight (Manager.AddStaker [] 0 0 [] 0 100) 0 0 150) 0 =
      Manager.Count (Manager.AddStaker [] 0 0 [] 0 100) 0 - 1 ∧
    lookupA (Manager.RemoveWeight (Manager.AddStaker [] 0 0 [] 0 100) 0 0 150) 0 = none ∧
    Manager.Count (Manager.RemoveWeight (Manager.AddStaker [] 0 0 [] 0 100) 0 0 150) 0 = 0 ∧
    Manager.NumNets (Manager.RemoveWeight (Manager.AddStaker [] 0 0 [] 0 100) 0 0 150) =
      Manager.NumNets (Manager.AddStaker [] 0 0 [] 0 100) - 1 := by
  obtain ⟨h1, h2, h3, h4⟩ :=
    remove_weight_clamps_deletes (Manager.AddStaker [] 0 0 [] 0 100) 0 0 150
      ⟨0, [], [], 100, 100, 0⟩ ⟨by decide, by decide⟩ (by decide) (by decide) (by decide)
      (by decide)
  obtain ⟨h5, h6, h7⟩ := h4 (by decide)
  exact ⟨h1, h2, h3, h5, h6, h7⟩

theorem addWeight_absent_getValidator (r : Registry) (net node light : Nat)
    (h : Manager.GetValidator r net node = none) :
    ∀ n nd, Manager.GetValidator (Manager.AddWeight r net node light) n nd =
      Manager.GetValidator r n nd := by
  unfold Manager.AddWeight
  cases hnet : lookupA r net with
  | none =>
    dsimp only
    intro n nd
    unfold Manager.GetValidator
    rw [lookupA_setA]
    by_cases hn : net = n
    · subst hn
      rw [if_pos rfl, hnet]
      rfl
    · rw [if_neg hn]
  | some inner =>
    dsimp only
    have hnode : lookupA inner node = none := by
      unfold Manager.GetValidator at h
      rw [hnet, Option.some_bind] at h
      exact h
    rw [hnode]
    exact fun n nd => rfl

/-- C9, counterexample: `AddWeight` on a record that does not exist is *not*
a state no-op when the network map is absent — Go first installs an empty
network map, which `NumNets` counts: on the empty registry it changes the
state and `NumNets` goes from 0 to 1. -/
theorem add_weight_nonexistent_counterexample :
    Manager.GetValidator ([] : Registry) 0 0 = none ∧
    Manager.AddWeight ([] : Registry) 0 0 5 ≠ ([] : Registry) ∧
    Manager.NumNets ([] : Registry) = 0 ∧
    Manager.NumNets (Manager.AddWeight ([] : Registry) 0 0 5) = 1 := by
  refine ⟨rfl, ?_, rfl, rfl⟩
  intro h
  exact absurd (congrArg List.length h) (by decide)

/-- C9 (amended): `AddWeight` on a nonexistent record returns success and
changes no validator record: every `GetValidator`, `GetLight`, `Count` and
`TotalLight` query is unchanged; but when the network map itself was absent,
an empty network entry is inserted, so `NumNets` grows by one (it is
unchanged when the network already existed). -/
theorem add_weight_nonexistent_frame (r : Registry) (net node light : Nat)
    (h : Manager.GetValidator r net node = none) :
    (∀ n nd, Manager.GetValidator (Manager.AddWeight r net node light) n nd =
      Manager.GetValidator r n nd) ∧
    (∀ n nd, Manager.GetLight (Manager.AddWeight r net node light) n nd =
      Manager.GetLight r n nd) ∧
    (∀ n, Manager.Count (Manager.AddWeight r net node light) n = Manager.Count r n) ∧
    (∀ n, Manager.TotalLight (Manager.AddWeight r net node light) n =
      Manager.TotalLight r n) ∧
    Manager.NumNets (Manager.AddWeight r net node light) =
      (if lookupA r net = none then Manager.NumNets r + 1 else Manager.NumNets r) := by
  unfold Manager.AddWeight
  cases hnet : lookupA r net with
  | none =>
    dsimp only
    have hgv : ∀ n nd, Manager.GetValidator (setA r net []) n nd =
        Manager.GetValidator r n nd := by
      intro n nd
      unfold Manager.GetValidator
      rw [lookupA_setA]
      by_cases hn : net = n
      · subst hn
        rw [if_pos rfl, hnet]
        rfl
      · rw [if_neg hn]
    refine ⟨hgv, ?_, ?_, ?_, ?_⟩
    · intro n nd
      unfold Manager.GetLight
      rw [hgv]
    · intro n
      unfold Manager.Count
      rw [lookupA_setA]
      by_cases hn : net = n
      · subst hn; rw [if_pos rfl, hnet]; rfl
      · rw [if_neg hn]
    · intro n
      unfold Manager.TotalLight
      rw [lookupA_setA]
      by_cases hn : net = n
      · subst hn; rw [if_pos rfl, hnet]; rfl
      · rw [if_neg hn]
    · rw [if_pos rfl]
      exact length_setA_absent r net [] hnet
  | some inner =>
    dsimp only
    have hnode : lookupA inner node = none := by
      unfold Manager.GetValidator at h
      rw [hnet, Option.some_bind] at h
      exact h
    rw [hnode]
    dsimp only
    refine ⟨fun n nd => rfl, fun n nd => rfl, fun n => rfl, fun n => rfl, ?_⟩
    rw [if_neg (fun hc => Option.noConfusion hc)]

/-- C9, witness: the amended frame theorem at a registry holding one staker in
network 1, queried for the absent pair (0, 0). -/
theorem add_weight_nonexistent_frame_witness :
    Manager.GetValidator (Manager.AddWeight (Manager.AddStaker [] 1 1 [] 0 10) 0 0 5)
      1 1 = Manager.GetValidator (Manager.AddStaker [] 1 1 [] 0 10) 1 1 ∧
    Manager.GetLight (Manager.AddWeight (Manager.AddStaker [] 1 1 [] 0 10) 0 0 5)
      0 0 = Manager.GetLight (Manager.AddStaker [] 1 1 [] 0 10) 0 0 ∧
    Manager.Count (Manager.AddWeight (Manager.AddStaker [] 1 1 [] 0 10) 0 0 5) 1 =
      Manager.Count (Manager.AddStaker [] 1 1 [] 0 10) 1 ∧
    Manager.TotalLight (Manager.AddWeight (Manager.AddStaker [] 1 1 [] 0 10) 0 0 5) 1 =
      Manager.TotalLight (Manager.AddStaker [] 1 1 [] 0 10) 1 ∧
    Manager.NumNets (Manager.AddWeight (Manager.AddStaker [] 1 1 [] 0 10) 0 0 5) =
      (if lookupA (Manager.AddStaker [] 1 1 [] 0 10) 0 = none
       then Manager.NumNets (Manager.AddStaker [] 1 1 [] 0 10) + 1
       else Manager.NumNets (Manager.AddStaker [] 1 1 [] 0 10)) := by
  obtain ⟨h1, h2, h3, h4, h5⟩ :=
    add_weight_nonexistent_frame (Manager.AddStaker [] 1 1 [] 0 10) 0 0 5 (by decide)
  exact ⟨h1 1 1, h2 0 0, h3 1, h4 1, h5⟩

/-! ## Wrapping sums -/

theorem subsetFold_char (inner : Inner) (s : List Nat) :
    ∀ acc, acc ≤ U64MAX →
    s.foldl (fun acc nid =>
        match lookupA inner nid with
        | some v => add64wrap acc v.Weight
        | none => acc) acc =
      (acc + ((s.filterMap (fun nid => lookupA inner nid)).map (·.Weight)).sum) %
        2 ^ 64 := by
  induction s with
  | nil =>
    intro acc hacc
    simp only [List.foldl_nil, List.filterMap_nil, List.map_nil, List.sum_nil,
      Nat.add_zero]
    exact (Nat.mod_eq_of_lt (by unfold U64MAX at hacc; omega)).symm
  | cons nid rest ih =>
    intro acc hacc
    simp only [List.foldl_cons, List.filterMap_cons]
    cases hl : lookupA inner nid with
    | none => exact ih acc hacc
    | some v =>
      have hwrap : add64wrap acc v.Weight ≤ U64MAX := by
        unfold add64wrap U64MAX
        have := Nat.mod_lt (acc + v.Weight) (show 0 < 2 ^ 64 by positivity)
        omega
      rw [ih (add64wrap acc v.Weight) hwrap]
      unfold add64wrap
      rw [List.map_cons, List.sum_cons, Nat.mod_add_mod]
      congr 1
      omega

theorem lightFold_char (inner : Inner) :
    Manager.lightFold inner = ((inner.map (·.2.Light)).sum) % 2 ^ 64 := by
  unfold Manager.lightFold
  have hgen : ∀ (ws : List Nat) (acc : Nat), acc ≤ U64MAX →
      ws.foldl add64wrap acc = (acc + ws.sum) % 2 ^ 64 := by
    intro ws
    induction ws with
    | nil =>
      intro acc hacc
      simp only [List.foldl_nil, List.sum_nil, Nat.add_zero]
      exact (Nat.mod_eq_of_lt (by unfold U64MAX at hacc; omega)).symm
    | cons w rest ih =>
      intro acc hacc
      have hwrap : add64wrap acc w ≤ U64MAX := by
        unfold add64wrap U64MAX
        have := Nat.mod_lt (acc + w) (show 0 < 2 ^ 64 by positivity)
        omega
      rw [List.foldl_cons, ih (add64wrap acc w) hwrap]
      unfold add64wrap
      rw [List.sum_cons, Nat.mod_add_mod]
      congr 1
      omega
  rw [show inner.foldl (fun acc p => add64wrap acc p.2.Light) 0 =
      (inner.map (·.2.Light)).foldl add64wrap 0 from (List.foldl_map _ _ _ _).symm]
  rw [hgen (inner.map (·.2.Light)) 0 (by unfold U64MAX; omega)]
  simp

/-- C10: registry-level weight arithmetic is unchecked and wraps modulo
`2 ^ 64`: `AddWeight` on an existing record stores the wrapped sum (the
operation is a total function — it has no error outcome at all), and
`SubsetWeight` and the snapshot total (`validatorSet.Light`, hence
`TotalLight`/`TotalWeight`) are wrapped sums; only the canonicalization
pipeline (`math.Add64` as used by `FlattenValidatorSet` and `SumWeight`)
checks for overflow and fails instead of wrapping. -/
theorem registry_unchecked_modular_arithmetic :
    (∀ r net node light v, Manager.GetValidator r net node = some v →
      ∃ inner, lookupA r net = some inner ∧
        Manager.AddWeight r net node light = setA r net (setA inner node
          { v with Light := (v.Light + light) % 2 ^ 64,
                   Weight := (v.Weight + light) % 2 ^ 64 }) ∧
        Manager.GetLight (Manager.AddWeight r net node light) net node =
          (v.Light + light) % 2 ^ 64) ∧
    (∀ r net s inner, lookupA r net = some inner →
      Manager.SubsetWeight r net s =
        ((s.filterMap (fun nid => lookupA inner nid)).map (·.Weight)).sum % 2 ^ 64) ∧
    (∀ r net inner, lookupA r net = some inner →
      Manager.TotalLight r net = ((inner.map (·.2.Light)).sum) % 2 ^ 64) ∧
    (∀ a b, add64 a b = .error .weightOverflow ↔ U64MAX < a + b) ∧
    (∀ l e, SumWeight l = .error e ↔ e = .weightOverflow ∧ U64MAX < cvWsum l) := by
  refine ⟨?_, ?_, ?_, ?_, sumWeight_error_iff⟩
  · intro r net node light v hv
    obtain ⟨inner, hnet, hnode⟩ : ∃ inner, lookupA r net = some inner ∧
        lookupA inner node = some v := by
      unfold Manager.GetValidator at hv
      cases hr : lookupA r net with
      | none => rw [hr] at hv; cases hv
      | some inner => rw [hr, Option.some_bind] at hv; exact ⟨inner, rfl, hv⟩
    have heq : Manager.AddWeight r net node light = setA r net (setA inner node
        { v with Light := (v.Light + light) % 2 ^ 64,
                 Weight := (v.Weight + light) % 2 ^ 64 }) := by
      unfold Manager.AddWeight
      rw [hnet]
      dsimp only
      rw [hnode]
      rfl
    refine ⟨inner, hnet, heq, ?_⟩
    rw [heq]
    unfold Manager.GetLight
    rw [getValidator_setNode r net node inner _ (by rw [hnet]; rfl), if_pos rfl,
      if_pos rfl]
    rfl
  · intro r net s inner hnet
    unfold Manager.SubsetWeight
    rw [hnet]
    dsimp only
    rw [subsetFold_char inner s 0 (Nat.zero_le _), Nat.zero_add]
  · intro r net inner hnet
    unfold Manager.TotalLight
    rw [hnet]
    dsimp only
    exact lightFold_char inner
  · intro a b
    unfold add64
    by_cases h : a + b ≤ U64MAX
    · rw [if_pos h]
      constructor
      · intro hc; cases hc
      · intro hc; omega
    · rw [if_neg h]
      exact ⟨fun _ => by omega, fun _ => rfl⟩

/-- C10, witness: adding 1 to a stored weight of `MaxUint64` wraps the stored
weight to 0 with no error, while the checked pipeline fails on the same sum. -/
theorem registry_unchecked_modular_arithmetic_witness :
    Manager.GetLight (Manager.AddWeight (Manager.AddStaker [] 0 0 [] 0 U64MAX) 0 0 1)
      0 0 = (U64MAX + 1) % 2 ^ 64 ∧
    add64 U64MAX 1 = .error .weightOverflow := by
  obtain ⟨inner, -, -, h3⟩ := registry_unchecked_modular_arithmetic.1
    (Manager.AddStaker [] 0 0 [] 0 U64MAX) 0 0 1 ⟨0, [], [], U64MAX, U64MAX, 0⟩
    (by decide)
  exact ⟨h3, (registry_unchecked_modular_arithmetic.2.2.2.1 U64MAX 1).2 (by decide)⟩

/-! ## Zero-weight invariant -/

theorem goodReg_addStaker {r : Registry} (hg : GoodReg r) (net node : Nat)
    (pk : List Nat) (tx light : Nat) (hpos : 0 < light) (hmax : light ≤ U64MAX) :
    GoodReg (Manager.AddStaker r net node pk tx light) := by
  intro n nd v hv
  unfold Manager.AddStaker at hv
  rw [getValidator_setNode r net node _ _ rfl] at hv
  by_cases hn : net = n
  · rw [if_pos hn] at hv
    by_cases hnd : node = nd
    · rw [if_pos hnd] at hv
      injection hv with hv
      rw [← hv]
      exact ⟨hpos, hmax, rfl⟩
    · rw [if_neg hnd] at hv
      exact hg n nd v hv
  · rw [if_neg hn] at hv
    exact hg n nd v hv

theorem goodReg_addWeight {r : Registry} (hg : GoodReg r) (net node light : Nat)
    (hsafe : match Manager.GetValidator r net node with
             | some v => v.Light + light ≤ U64MAX
             | none => True) :
    GoodReg (Manager.AddWeight r net node light) := by
  cases hv : Manager.GetValidator r net node with
  | none =>
    intro n nd w hw
    rw [addWeight_absent_getValidator r net node light hv n nd] at hw
    exact hg n nd w hw
  | some v =>
    rw [hv] at hsafe
    obtain ⟨hpos, hmax, hwl⟩ := hg net node v hv
    obtain ⟨inner, hnet, hnode⟩ : ∃ inner, lookupA r net = some inner ∧
        lookupA inner node = some v := by
      unfold Manager.GetValidator at hv
      cases hr : lookupA r net with
      | none => rw [hr] at hv; cases hv
      | some inner => rw [hr, Option.some_bind] at hv; exact ⟨inner, rfl, hv⟩
    have heq : Manager.AddWeight r net node light = setA r net (setA inner node
        { v with Light := add64wrap v.Light light,
                 Weight := add64wrap v.Weight light }) := by
      unfold Manager.AddWeight
      rw [hnet]
      dsimp only
      rw [hnode]
    intro n nd w hw
    rw [heq, getValidator_setNode r net node inner _ (by rw [hnet]; rfl)] at hw
    by_cases hn : net = n
    · rw [if_pos hn] at hw
      by_cases hnd : node = nd
      · rw [if_pos hnd] at hw
        injection hw with hw
        rw [← hw]
        have hlt : v.Light + light < 2 ^ 64 := by unfold U64MAX at hsafe; omega
        have hmod : add64wrap v.Light light = v.Light + light := by
          unfold add64wrap
          exact Nat.mod_eq_of_lt hlt
        refine ⟨?_, ?_, ?_⟩
        · show 0 < add64wrap v.Light light
          rw [hmod]
          omega
        · show add64wrap v.Light light ≤ U64MAX
          rw [hmod]
          exact hsafe
        · show add64wrap v.Weight light = add64wrap v.Light light
          rw [hwl]
      · rw [if_neg hnd] at hw
        exact hg n nd w hw
    · rw [if_neg hn] at hw
      exact hg n nd w hw

theorem goodReg_removeWeight {r : Registry} (hwf : WFReg r) (hg : GoodReg r)
    (net node light : Nat) : GoodReg (Manager.RemoveWeight r net node light) := by
  unfold Manager.RemoveWeight
  cases hnet : lookupA r net with
  | none => exact hg
  | some inner =>
    dsimp only
    cases hnode : lookupA inner node with
    | none => exact hg
    | some v =>
      dsimp only
      have hin : (inner.map (·.1)).Nodup := by
        simpa using hwf.2 (net, inner) (lookupA_mem r net inner hnet)
      have hv : Manager.GetValidator r net node = some v := by
        unfold Manager.GetValidator
        rw [hnet, Option.some_bind, hnode]
      obtain ⟨hpos, hmax, hwl⟩ := hg net node v hv
      by_cases hz : (if light ≤ v.Light then
          { v with Light := sub64wrap v.Light light,
                   Weight := sub64wrap v.Weight light }
        else { v with Light := 0, Weight := 0 }).Light = 0
      · rw [if_pos hz]
        by_cases he : eraseA inner node = []
        · rw [if_pos he]
          intro n nd w hw
          rw [getValidator_eraseNet r net hwf.1] at hw
          by_cases hn : net = n
          · rw [if_pos hn] at hw; cases hw
          · rw [if_neg hn] at hw
            exact hg n nd w hw
        · rw [if_neg he]
          intro n nd w hw
          rw [getValidator_setEraseNode r net node inner hnet hin] at hw
          by_cases hn : net = n
          · rw [if_pos hn] at hw
            by_cases hnd : node = nd
            · rw [if_pos hnd] at hw; cases hw
            · rw [if_neg hnd] at hw
              exact hg n nd w hw
          · rw [if_neg hn] at hw
            exact hg n nd w hw
      · rw [if_neg hz]
        intro n nd w hw
        rw [getValidator_setNode r net node inner _ (by rw [hnet]; rfl)] at hw
        by_cases hn : net = n
        · rw [if_pos hn] at hw
          by_cases hnd : node = nd
          · rw [if_pos hnd] at hw
            injection hw with hw
            rw [← hw]
            by_cases hb : light ≤ v.Light
            · rw [if_pos hb] at hz ⊢
              have hs : sub64wrap v.Light light = v.Light - light :=
                sub64wrap_eq v.Light light hb hmax
              have hz' : sub64wrap v.Light light ≠ 0 := hz
              rw [hs] at hz'
              refine ⟨?_, ?_, ?_⟩
              · show 0 < sub64wrap v.Light light
                rw [hs]
                omega
              · show sub64wrap v.Light light ≤ U64MAX
                rw [hs]
                omega
              · show sub64wrap v.Weight light = sub64wrap v.Light light
                rw [hwl]
            · exfalso
              rw [if_neg hb] at hz
              exact hz rfl
          · rw [if_neg hnd] at hw
            exact hg n nd w hw
        · rw [if_neg hn] at hw
          exact hg n nd w hw

theorem execOps_preserves : ∀ (ops : List RegOp) (r : Registry),
    WFReg r → GoodReg r → OpsSafe r ops →
    WFReg (execOps r ops) ∧ GoodReg (execOps r ops) := by
  intro ops
  induction ops with
  | nil => intro r hwf hg _; exact ⟨hwf, hg⟩
  | cons op rest ih =>
    intro r hwf hg hsafe
    obtain ⟨hcond, hrest⟩ := hsafe
    have hstep : WFReg (applyOp r op) ∧ GoodReg (applyOp r op) := by
      cases op with
      | addStaker net node pk tx light =>
        exact ⟨wf_addStaker hwf net node pk tx light,
          goodReg_addStaker hg net node pk tx light hcond.1 hcond.2⟩
      | addWeight net node light =>
        exact ⟨wf_addWeight hwf net node light,
          goodReg_addWeight hg net node light hcond⟩
      | removeWeight net node light =>
        exact ⟨wf_removeWeight hwf net node light,
          goodReg_removeWeight hwf hg net node light⟩
    exact ih (applyOp r op) hstep.1 hstep.2 hrest

/-- C7, counterexample: `AddStaker` with weight 0 (an argument choice the
claim explicitly includes) stores a record whose weight is 0, so the registry
does hold a zero-weight record. -/
theorem registry_zero_weight_counterexample :
    Manager.GetValidator (execOps [] [RegOp.addStaker 0 0 [] 0 0]) 0 0 =
      some ⟨0, [], [], 0, 0, 0⟩ ∧
    (⟨0, [], [], 0, 0, 0⟩ : GetValidatorOutput).Light = 0 ∧
    (⟨0, [], [], 0, 0, 0⟩ : GetValidatorOutput).Weight = 0 := by
  decide

/-- C7 (amended): after any sequence of `AddStaker`/`AddWeight`/`RemoveWeight`
operations from the empty registry in which every `AddStaker` weight is
positive and uint64-representable and no `AddWeight` wraps its record past
`MaxUint64`, every record present has strictly positive weight (`RemoveWeight`
alone can never leave a zero-weight record, as it deletes at zero).  Without
the two side conditions the invariant fails: `AddStaker` can store weight 0
and a wrapping `AddWeight` can drive a weight to 0. -/
theorem registry_no_zero_weight_records (ops : List RegOp)
    (hsafe : OpsSafe [] ops) :
    ∀ net node v, Manager.GetValidator (execOps [] ops) net node = some v →
      0 < v.Light ∧ 0 < v.Weight := by
  have hempty : GoodReg ([] : Registry) := by
    intro net node v hv
    simp [Manager.GetValidator, lookupA] at hv
  have h := execOps_preserves ops [] ⟨by simp, by simp⟩ hempty hsafe
  intro net node v hv
  obtain ⟨hpos, -, hw⟩ := h.2 net node v hv
  exact ⟨hpos, by rw [hw]; exact hpos⟩

/-- C7, witness: staking 100 then adding 50 leaves the record at weight 150,
strictly positive. -/
theorem registry_no_zero_weight_records_witness :
    0 < (⟨0, [], [], 150, 150, 0⟩ : GetValidatorOutput).Light ∧
    0 < (⟨0, [], [], 150, 150, 0⟩ : GetValidatorOutput).Weight :=
  registry_no_zero_weight_records
    [RegOp.addStaker 0 0 [] 0 100, RegOp.addWeight 0 0 50]
    ⟨⟨by decide, by decide⟩, (by decide : (100 : Nat) + 50 ≤ U64MAX), trivial⟩
    0 0 ⟨0, [], [], 150, 150, 0⟩ (by decide)

/-- C8, counterexample: `GetMap` is a shallow copy.  The returned map holds
the registry's own record pointers, so overwriting the record behind the
address obtained from the returned map (`writeThrough`) changes what the
registry's own `GetWeight` subsequently reports (100 before, 999 after) —
mutating a record reachable through the returned structure does change
internal state. -/
theorem getmap_shallow_copy_counterexample :
    lookupA (HManager.GetMap (HManager.AddStaker HManager.empty 0 0 [] 0 100) 0) 0 =
      some 0 ∧
    HManager.GetWeight (HManager.AddStaker HManager.empty 0 0 [] 0 100) 0 0 = 100 ∧
    HManager.GetWeight ((HManager.AddStaker HManager.empty 0 0 [] 0 100).writeThrough 0
      ⟨0, [], [], 999, 999, 0⟩) 0 0 = 999 := by
  decide

/-- C8 (amended): `GetMap` returns a copy of the per-network map — the map
structure itself is left intact by heap writes (so deleting from or adding to
the returned copy cannot alter the registry) — but the validator records are
shared by pointer: overwriting the record behind any address obtained from
the returned map is observed by the registry's subsequent `GetValidator` and
`GetWeight` reads. -/
theorem getmap_copies_map_shares_records (m : HManager) (net node addr : Nat)
    (v' : GetValidatorOutput) (haddr : lookupA (m.GetMap net) node = some addr)
    (hlt : addr < m.heap.length) :
    HManager.GetValidator (m.writeThrough addr v') net node = some v' ∧
    HManager.GetWeight (m.writeThrough addr v') net node = v'.Light ∧
    (m.writeThrough addr v').GetMap net = m.GetMap net := by
  obtain ⟨inner, hnet, hnode⟩ : ∃ inner, lookupA m.nets net = some inner ∧
      lookupA inner node = some addr := by
    unfold HManager.GetMap at haddr
    cases hn : lookupA m.nets net with
    | none =>
      rw [hn] at haddr
      simp [lookupA] at haddr
    | some inner =>
      rw [hn] at haddr
      exact ⟨inner, rfl, by simpa using haddr⟩
  have hgv : HManager.GetValidator (m.writeThrough addr v') net node = some v' := by
    unfold HManager.GetValidator HManager.writeThrough HManager.deref
    dsimp only
    rw [hnet, Option.some_bind, hnode, Option.some_bind]
    exact List.getElem?_set_self hlt
  refine ⟨hgv, ?_, rfl⟩
  unfold HManager.GetWeight
  rw [hgv]
  rfl

/-- C8, witness for the amended theorem: the single-staker manager, written
through the address its `GetMap` returned. -/
theorem getmap_copies_map_shares_records_witness :
    HManager.GetValidator ((HManager.AddStaker HManager.empty 0 0 [] 0 100).writeThrough
      0 ⟨0, [], [], 999, 999, 0⟩) 0 0 = some ⟨0, [], [], 999, 999, 0⟩ ∧
    HManager.GetWeight ((HManager.AddStaker HManager.empty 0 0 [] 0 100).writeThrough
      0 ⟨0, [], [], 999, 999, 0⟩) 0 0 = (⟨0, [], [], 999, 999, 0⟩ : GetValidatorOutput).Light ∧
    ((HManager.AddStaker HManager.empty 0 0 [] 0 100).writeThrough
      0 ⟨0, [], [], 999, 999, 0⟩).GetMap 0 =
      (HManager.AddStaker HManager.empty 0 0 [] 0 100).GetMap 0 :=
  getmap_copies_map_shares_records (HManager.AddStaker HManager.empty 0 0 [] 0 100)
    0 0 0 ⟨0, [], [], 999, 999, 0⟩ (by decide) (by decide)

end LuxValidators
